import Mathlib

/-!
Verification of the PDF outline extractor (`extractor.py`).

The program's pure core is shallowly embedded here: Python strings become
`List Char`, each regular expression used by the source becomes a bespoke
decidable matcher with the same semantics, integer-valued float comparisons
(`font_size > body_size * 1.2` and friends, plus the two ratio tests) are
rendered as exact rational comparisons over `Nat`, and the layout interface
(PyMuPDF) is modelled by the block / line / TOC data the source reads from it.
-/

namespace Extractor

/-- Python strings, embedded as character lists. -/
abbrev Chars := List Char

/-- Membership of a character in the allow-list of `[^\w\s\-.,;:()"]`:
`\w` (alphanumeric or underscore). -/
def isWordChar (c : Char) : Bool := c.isAlphanum || c = '_'

/-- The punctuation allowed by the special-character filter `[^\w\s\-.,;:()"]`. -/
def allowedPunct : Chars := ['-', '.', ',', ';', ':', '(', ')', '"']

/-- `s` consists purely of whitespace (matches `\s*$`). -/
def allWs (s : Chars) : Bool := s.all Char.isWhitespace

/-- Python `str.strip()`: drop leading and trailing whitespace. -/
def pyStrip (s : Chars) : Chars :=
  ((s.dropWhile Char.isWhitespace).reverse.dropWhile Char.isWhitespace).reverse

/-- `re.sub(r'\s+', ' ', text)`: replace each maximal whitespace run by a
single space.  The flag records whether the previous character was
whitespace (so the current run has already emitted its space). -/
def collapseAux : Bool → Chars → Chars
  | _, [] => []
  | inWs, c :: cs =>
    if c.isWhitespace then
      if inWs then collapseAux true cs else ' ' :: collapseAux true cs
    else c :: collapseAux false cs

/-- `re.sub(r'\s+', ' ', text)`. -/
def collapseWs (s : Chars) : Chars := collapseAux false s

/-- `re.sub(r'\s+', ' ', text).strip()`, the normalization step of
`clean_text` and `get_title`. -/
def normWs (s : Chars) : Chars := pyStrip (collapseWs s)

/-- Python `str.split()` (no argument): split on whitespace runs, returning
the maximal non-whitespace runs, with no empty tokens.  `cur` accumulates the
current token. -/
def splitAux (cur : Chars) : Chars → List Chars
  | [] => if cur = [] then [] else [cur]
  | c :: cs =>
    if c.isWhitespace then
      if cur = [] then splitAux [] cs else cur :: splitAux [] cs
    else splitAux (cur ++ [c]) cs

/-- Python `str.split()` (no argument). -/
def pySplit (s : Chars) : List Chars := splitAux [] s

/-- `" ".join(tokens)`. -/
def joinSp : List Chars → Chars
  | [] => []
  | [t] => t
  | t :: ts => t ++ ' ' :: joinSp ts

/-- The keys of a `Counter`-like mapping, in insertion order: the elements of
`xs` not already in `seen`, each listed at its first occurrence. -/
def newKeys (seen : List α) [DecidableEq α] : List α → List α
  | [] => []
  | x :: xs => if x ∈ seen then newKeys seen xs else x :: newKeys (seen ++ [x]) xs

/-- `sum(1 for count in Counter(words).values() if count > 1)`: the number of
distinct words occurring more than once. -/
def repeatedDistinct (ws : List Chars) : Nat :=
  ((newKeys [] ws).filter (fun w => ws.count w > 1)).length

/-- The word-repetition rejection of `clean_text` (source lines 67-74), applied
to the already-normalized text: texts longer than 30 characters with more than
5 words are rejected when `repeated_words / len(words) > 0.5`
(exact rational form of the float comparison). -/
def wordRepRejects (text : Chars) : Bool :=
  decide (text.length > 30) && decide ((pySplit text).length > 5) &&
    decide (2 * repeatedDistinct (pySplit text) > (pySplit text).length)

/-- `c` begins a run of `n` further copies of itself in `s`. -/
def startsRun (c : Char) : Nat → Chars → Bool
  | 0, _ => true
  | _ + 1, [] => false
  | n + 1, d :: rest => c = d && startsRun c n rest

/-- `re.search(r'(.)\1{6,}', text)`: some character occurs 7 or more times
consecutively. -/
def hasRun7 : Chars → Bool
  | [] => false
  | c :: rest => startsRun c 6 rest || hasRun7 rest

/-- `len(re.findall(r'[^\w\s\-.,;:()"]', text))`: the number of special
characters. -/
def specialCount (s : Chars) : Nat :=
  (s.filter (fun c => !(isWordChar c || c.isWhitespace || c ∈ allowedPunct))).length

/-- `clean_text` (source lines 58-86). The special-character rejection
`special_char_ratio > 0.6` is rendered exactly as `5 * count > 3 * length`
(the `if text:` guard of the source is subsumed: an empty text has ratio 0). -/
def clean_text (t : Chars) : Chars :=
  if t = [] then []
  else if wordRepRejects (normWs t) then []
  else if hasRun7 (normWs t) then []
  else if 5 * specialCount (normWs t) > 3 * (normWs t).length then []
  else normWs t

/-! ### The regular expressions of `is_likely_heading`, as decidable matchers

Each matcher mirrors one pattern literal of the source.  All patterns are used
with `re.match` (anchored at the start only) and `re.IGNORECASE`. -/

/-- Tail of `^\$[\d,]+(\.\d{2})?\s*$` after the digit/comma run: either only
whitespace remains, or `.` plus exactly two digits plus whitespace. -/
def moneyTail (r : Chars) : Bool :=
  allWs r ||
    (match r with
     | '.' :: a :: b :: rest => a.isDigit && b.isDigit && allWs rest
     | _ => false)

/-- `^\$[\d,]+(\.\d{2})?\s*$` — a bare money amount. -/
def matchMoney : Chars → Bool
  | [] => false
  | c :: rest =>
    let isDC : Char → Bool := fun c => c.isDigit || c = ','
    c = '$' && rest.takeWhile isDC ≠ [] && moneyTail (rest.dropWhile isDC)

/-- Tail of `^Page\s+\d+\s*$` after the literal `Page`: one or more whitespace
characters, one or more digits, trailing whitespace. -/
def pageTail (r : Chars) : Bool :=
  let r1 := r.dropWhile Char.isWhitespace
  r.takeWhile Char.isWhitespace ≠ [] &&
    r1.takeWhile Char.isDigit ≠ [] && allWs (r1.dropWhile Char.isDigit)

/-- `^Page\s+\d+\s*$` (case-insensitive) — a bare page number. -/
def matchPageNum : Chars → Bool
  | p :: a :: g :: e :: rest =>
    p.toLower = 'p' && a.toLower = 'a' && g.toLower = 'g' && e.toLower = 'e' &&
      pageTail rest
  | _ => false

/-- `^[^a-zA-Z]*$` — no letters at all. -/
def noLettersOnly (s : Chars) : Bool := s.all (fun c => !c.isAlpha)

/-- `^[^\w\s]*$` — only special characters. -/
def noWordCharsOnly (s : Chars) : Bool :=
  s.all (fun c => !(isWordChar c || c.isWhitespace))

/-- The `strict_non_heading_patterns` test of the source: `re.match` of any of
the four patterns. -/
def strictNonHeading (s : Chars) : Bool :=
  matchMoney s || matchPageNum s || noLettersOnly s || noWordCharsOnly s

/-- `kw` (given in lowercase) is a case-insensitive initial segment of `s`. -/
def startsWithCI : Chars → Chars → Bool
  | [], _ => true
  | _ :: _, [] => false
  | k :: ks, c :: cs => k = c.toLower && startsWithCI ks cs

/-- The first alternation pattern
`^(Chapter|Section|Part|Appendix|Summary|Background|Introduction|Conclusion|References?|Bibliography)\s*[A-Z0-9]*`:
since `\s*[A-Z0-9]*` can be empty and the match is unanchored at the right,
this is exactly a case-insensitive keyword test at the start (`References?` and
the optional-`s` makes `reference` the effective stem). -/
def strongKeywords : List Chars :=
  ["chapter".toList, "section".toList, "part".toList, "appendix".toList,
   "summary".toList, "background".toList, "introduction".toList,
   "conclusion".toList, "reference".toList, "bibliography".toList]

/-- Automaton for `^\d+(\.\d+)*\s+[A-Za-z]` after its first digit.  Modes:
`0` — a dot was just read (a digit must follow); `1` — inside a digit run
(a digit, a dot, or the mandatory whitespace may follow); `2` — inside the
mandatory whitespace (more whitespace or the final letter).  The pattern is
unanchored on the right, so the letter accepts immediately. -/
def numDotAux : Nat → Chars → Bool
  | _, [] => false
  | 0, c :: cs => c.isDigit && numDotAux 1 cs
  | 1, c :: cs =>
    if c.isDigit then numDotAux 1 cs
    else if c = '.' then numDotAux 0 cs
    else if c.isWhitespace then numDotAux 2 cs
    else false
  | _ + 2, c :: cs => if c.isWhitespace then numDotAux 2 cs else c.isAlpha

/-- `^\d+(\.\d+)*\s+[A-Za-z]` — numbered headings such as `1.1 Introduction`. -/
def matchNumDot : Chars → Bool
  | [] => false
  | c :: cs => c.isDigit && numDotAux 1 cs

/-- Automaton for `^[A-Z]{2,}(\s+[A-Z]{2,})*\s*$` under `re.IGNORECASE`
(so `[A-Z]` matches any letter): `inTok = true` means we are inside a token of
which `n` letters have been read; `inTok = false` means we are inside a
whitespace gap. -/
def capsAux : Bool → Nat → Chars → Bool
  | true, n, [] => n ≥ 2
  | false, _, [] => true
  | true, n, c :: cs =>
    if c.isAlpha then capsAux true (n + 1) cs
    else if c.isWhitespace then n ≥ 2 && capsAux false 0 cs
    else false
  | false, _, c :: cs =>
    if c.isAlpha then capsAux true 1 cs
    else if c.isWhitespace then capsAux false 0 cs
    else false

/-- `^[A-Z]{2,}(\s+[A-Z]{2,})*\s*$` with `re.IGNORECASE`: whitespace-separated
tokens of at least two letters each. -/
def matchCapsTokens : Chars → Bool
  | [] => false
  | c :: cs => c.isAlpha && capsAux true 1 cs

/-- `^(Abstract|Executive Summary|Table of Contents|Acknowledgments?)`:
a case-insensitive keyword test at the start (stem `acknowledgment`). -/
def strongKeywords2 : List Chars :=
  ["abstract".toList, "executive summary".toList, "table of contents".toList,
   "acknowledgment".toList]

/-- The `strong_heading_patterns` test of the source, in source order. -/
def strongHeading (s : Chars) : Bool :=
  strongKeywords.any (fun k => startsWithCI k s) ||
    matchNumDot s || matchCapsTokens s ||
    strongKeywords2.any (fun k => startsWithCI k s)

/-- `^\d+\.\d+\s*$` — a bare decimal such as `3.1`. -/
def matchBareDecimal (s : Chars) : Bool :=
  s.takeWhile Char.isDigit ≠ [] &&
    (match s.dropWhile Char.isDigit with
     | '.' :: r =>
       r.takeWhile Char.isDigit ≠ [] && allWs (r.dropWhile Char.isDigit)
     | _ => false)

/-- `^[A-Z]\.\d+\s*$` (case-insensitive) — a bare section reference
such as `A.1`. -/
def matchSectionRef : Chars → Bool
  | c :: '.' :: r =>
    c.isAlpha && r.takeWhile Char.isDigit ≠ [] && allWs (r.dropWhile Char.isDigit)
  | _ => false

/-- `^\d{4}[\s-]\d{4}\s*$` — a year range such as `2019-2023`. -/
def matchYearRange : Chars → Bool
  | a :: b :: c :: d :: sep :: e :: f :: g :: h :: rest =>
    a.isDigit && b.isDigit && c.isDigit && d.isDigit &&
      (sep.isWhitespace || sep = '-') &&
      e.isDigit && f.isDigit && g.isDigit && h.isDigit && allWs rest
  | _ => false

/-- `^\(\s*[^)]*\s*\)\s*$` — text entirely inside one pair of parentheses:
after `(`, everything up to the first `)` (which must exist), then only
whitespace. -/
def matchParenOnly : Chars → Bool
  | '(' :: r =>
    (match r.dropWhile (fun c => c ≠ ')') with
     | ')' :: tail => allWs tail
     | _ => false)
  | _ => false

/-- The twelve month names, lowercased. -/
def monthNames : List Chars :=
  ["january".toList, "february".toList, "march".toList, "april".toList,
   "may".toList, "june".toList, "july".toList, "august".toList,
   "september".toList, "october".toList, "november".toList, "december".toList]

/-- Tail of the date pattern after `\d{1,2},?`: `\s+\d{4}\s*$`. -/
def yearTail (r : Chars) : Bool :=
  let r1 := r.dropWhile Char.isWhitespace
  r.takeWhile Char.isWhitespace ≠ [] &&
    (r1.takeWhile Char.isDigit).length = 4 && allWs (r1.dropWhile Char.isDigit)

/-- Tail of the date pattern after the month name: `\s+\d{1,2},?\s+\d{4}\s*$`. -/
def dateTail (r : Chars) : Bool :=
  let r1 := r.dropWhile Char.isWhitespace
  let d := r1.takeWhile Char.isDigit
  r.takeWhile Char.isWhitespace ≠ [] && (d.length = 1 || d.length = 2) &&
    (match r1.dropWhile Char.isDigit with
     | ',' :: r2 => yearTail r2
     | r2 => yearTail r2)

/-- `^(January|…|December)\s+\d{1,2},?\s+\d{4}\s*$` (case-insensitive) — a
full calendar date. -/
def matchMonthDate (s : Chars) : Bool :=
  monthNames.any (fun m => startsWithCI m s && dateTail (s.drop m.length))

/-- The `loose_non_heading_patterns` test of the source, in source order. -/
def looseNonHeading (s : Chars) : Bool :=
  matchBareDecimal s || matchSectionRef s || matchYearRange s ||
    matchParenOnly s || matchMonthDate s

/-- `clean[0].isupper()` on a nonempty string. -/
def firstUpper : Chars → Bool
  | [] => false
  | c :: _ => c.isUpper

/-- Automaton for Python `str.istitle()` (ASCII model): uppercase letters may
only follow uncased characters, lowercase letters only cased ones, and at
least one cased character must occur. -/
def istitleAux : Bool → Bool → Chars → Bool
  | _, seen, [] => seen
  | prevCased, seen, c :: cs =>
    if c.isUpper then (if prevCased then false else istitleAux true true cs)
    else if c.isLower then (if prevCased then istitleAux true seen cs else false)
    else istitleAux false seen cs

/-- Python `str.istitle()`. -/
def pyIsTitle (s : Chars) : Bool := istitleAux false false s

/-- `re.search(r'[.]{2,}', clean)`: two consecutive periods somewhere. -/
def hasDoubleDot : Chars → Bool
  | '.' :: '.' :: _ => true
  | _ :: rest => hasDoubleDot rest
  | [] => false

/-- `is_likely_heading` (source lines 88-168).  The float thresholds
`body_size * 1.2` and `body_size * 1.05` become the exact rational comparisons
`5 * font > 6 * body` and `20 * font > 21 * body`.  The `heading_sizes`
argument is accepted but (as in the source) never used. -/
def is_likely_heading (text : Chars) (font_size : Nat) (is_bold : Bool)
    (body_size : Nat) (heading_sizes : List Nat) : Bool :=
  if text = [] ∨ (pyStrip text).length < 2 then false
  else if clean_text text = [] then false
  else if (pySplit (clean_text text)).length > 25 then false
  else if (clean_text text).length > 200 then false
  else if strictNonHeading (clean_text text) then false
  else if strongHeading (clean_text text) then true
  else if 5 * font_size > 6 * body_size then true
  else if is_bold && (20 * font_size > 21 * body_size) then true
  else if is_bold && font_size ≥ body_size &&
      (firstUpper (clean_text text) || pyIsTitle (clean_text text)) then
    !looseNonHeading (clean_text text)
  else if (20 * font_size > 21 * body_size) && firstUpper (clean_text text) &&
      (pySplit (clean_text text)).length ≤ 8 &&
      !hasDoubleDot (clean_text text) then true
  else false

/-! ### Outline extraction pipeline -/

/-- A text block as assembled by pass 1 of `extract_outline_heuristically`
(source lines 177-212): concatenated span text, rounded average font size,
boldness, 1-based page.  Blocks are listed in page-then-block traversal
order. -/
structure Block where
  text : Chars
  font_size : Nat
  is_bold : Bool
  page : Nat
deriving DecidableEq, Repr

/-- An outline entry `{"level": …, "text": …, "page": …}`. -/
structure Entry where
  level : Chars
  text : Chars
  page : Nat
deriving DecidableEq, Repr

/-- `font_counts[size] += 1` on an insertion-ordered counter: increment the
existing entry, or append a fresh `(size, 1)` entry at the end. -/
def bumpCount (k : Nat) : List (Nat × Nat) → List (Nat × Nat)
  | [] => [(k, 1)]
  | (a, n) :: rest => if a = k then (a, n + 1) :: rest else (a, n) :: bumpCount k rest

/-- The font histogram `font_counts`, built over the traversal order of the
block font sizes (a `collections.Counter`, which preserves first-insertion
key order). -/
def buildCounts (sizes : List Nat) : List (Nat × Nat) :=
  sizes.foldl (fun acc k => bumpCount k acc) []

/-- Scanning step of `Counter.most_common(1)`: keep the current best key,
replacing it only on a strictly greater count (`heapq.nlargest` is stable, so
the first-inserted key wins ties). -/
def mcGo (a : Nat) (n : Nat) : List (Nat × Nat) → Nat
  | [] => a
  | (b, m) :: rest => if m > n then mcGo b m rest else mcGo a n rest

/-- `font_counts.most_common(1)[0][0]`: the first-inserted key of maximal
count, or `none` for an empty histogram. -/
def mostCommon1 : List (Nat × Nat) → Option Nat
  | [] => none
  | (a, n) :: rest => some (mcGo a n rest)

/-- `sorted([size for size in font_counts if size > body_text_size],
reverse=True)`. -/
def headingSizesOf (fc : List (Nat × Nat)) (body : Nat) : List Nat :=
  List.insertionSort (· ≥ ·) ((fc.map Prod.fst).filter (fun s => body < s))

/-- `size_to_level` construction (source lines 230-243): with the heading
sizes sorted descending, the largest maps to `H1`, the second to `H2`, and
with three or more sizes every remaining one maps to `H3`. -/
def size_to_level : List Nat → List (Nat × Chars)
  | [] => []
  | [a] => [(a, "H1".toList)]
  | [a, b] => [(a, "H1".toList), (b, "H2".toList)]
  | a :: b :: rest =>
    (a, "H1".toList) :: (b, "H2".toList) :: rest.map (fun s => (s, "H3".toList))

/-- Level resolution for one block (source lines 264-271): look the font size
up in `size_to_level`; with no entry, fall back to `H3` for bold blocks at
least as large as the body size, else skip (`none`). -/
def resolve_level (lm : List (Nat × Chars)) (font_size : Nat) (is_bold : Bool)
    (body : Nat) : Option Chars :=
  match lm.lookup font_size with
  | some l => some l
  | none => if is_bold && font_size ≥ body then some ("H3".toList) else none

/-- Python `str.lower()` (ASCII model), used for the deduplication key. -/
def lowerStr (s : Chars) : Chars := s.map Char.toLower

/-- Pass 2 of `extract_outline_heuristically` (source lines 249-281): clean,
classify, resolve the level, and deduplicate on `(page, clean.lower())`,
keeping first occurrences. -/
def pass2 (body : Nat) (hs : List Nat) (lm : List (Nat × Chars)) :
    List Block → List (Nat × Chars) → List Entry
  | [], _ => []
  | b :: bs, seen =>
    let clean := clean_text b.text
    if clean = [] then pass2 body hs lm bs seen
    else if !is_likely_heading clean b.font_size b.is_bold body hs then
      pass2 body hs lm bs seen
    else
      match resolve_level lm b.font_size b.is_bold body with
      | none => pass2 body hs lm bs seen
      | some level =>
        if (b.page, lowerStr clean) ∈ seen then pass2 body hs lm bs seen
        else ⟨level, clean, b.page⟩ ::
          pass2 body hs lm bs ((b.page, lowerStr clean) :: seen)

/-- `extract_outline_heuristically` (source lines 170-283), over the text
blocks collected by pass 1. -/
def extract_outline_heuristically (blocks : List Block) : List Entry :=
  match mostCommon1 (buildCounts (blocks.map Block.font_size)) with
  | none => []
  | some body =>
    pass2 body (headingSizesOf (buildCounts (blocks.map Block.font_size)) body)
      (size_to_level (headingSizesOf (buildCounts (blocks.map Block.font_size)) body))
      blocks []

/-! ### TOC adapter, title resolution, per-document processing -/

/-- One native table-of-contents entry `[level, title, page]` as returned by
`doc.get_toc()`. -/
structure TocEntry where
  level : Nat
  text : Chars
  page : Nat
deriving DecidableEq, Repr

/-- `f"H{level}"`. -/
def hLabel (n : Nat) : Chars := 'H' :: (Nat.repr n).toList

/-- `extract_outline_from_toc` (source lines 43-56): keep the entries of depth
1-3 with stripped text and `H<depth>` levels; `None` when the TOC is empty or
nothing survives the depth filter. -/
def extract_outline_from_toc (toc : List TocEntry) : Option (List Entry) :=
  if toc = [] then none
  else
    let outline := toc.filterMap (fun e =>
      if 1 ≤ e.level ∧ e.level ≤ 3 then
        some ⟨hLabel e.level, pyStrip e.text, e.page⟩
      else none)
    if outline = [] then none else some outline

/-- The TOC-before-heuristics choice of `process_single_pdf` (source lines
295-297): `outline = extract_outline_from_toc(doc); if not outline: outline =
extract_outline_heuristically(doc)` — the heuristic result is used only when
the adapter yields `None` (it never yields `some []`, but `if not outline`
is modelled faithfully). -/
def outline_for (toc : List TocEntry) (heurOutline : List Entry) : List Entry :=
  match extract_outline_from_toc toc with
  | some o => if o = [] then heurOutline else o
  | none => heurOutline

/-- One first-page text line for `get_title`: joined span text and the rounded
size of its first span, in extraction order. -/
abbrev TitleLine := Chars × Nat

/-- `candidates[line_size].append(line_text)` on an insertion-ordered mapping
from font size to the lines of that size. -/
def addCand (sz : Nat) (tx : Chars) : List (Nat × List Chars) → List (Nat × List Chars)
  | [] => [(sz, [tx])]
  | (a, ls) :: rest =>
    if a = sz then (a, ls ++ [tx]) :: rest else (a, ls) :: addCand sz tx rest

/-- The `candidates` dictionary of `get_title`, built over the first-page
lines in extraction order. -/
def buildCands (lines : List TitleLine) : List (Nat × List Chars) :=
  lines.foldl (fun acc p => addCand p.2 p.1 acc) []

/-- `max(candidates.keys())`. -/
def maxKey (cands : List (Nat × List Chars)) : Nat :=
  (cands.map Prod.fst).foldl max 0

/-- The `title_text` variable of `get_title` (source lines 19-36) just before
the final length check: `firstPage = none` models the swallowed extraction
failure (`except (IndexError, ValueError)`), in which case the initial
`"Untitled Document"` stands; with no candidate lines it also stands;
otherwise the lines of the largest font size are joined and normalized. -/
def title_candidate (firstPage : Option (List TitleLine)) : Chars :=
  match firstPage with
  | none => "Untitled Document".toList
  | some lines =>
    if buildCands lines = [] then "Untitled Document".toList
    else normWs (joinSp (((buildCands lines).lookup (maxKey (buildCands lines))).getD []))

/-- The first-page largest-font branch of `get_title` with its final
degenerate-length check (source line 41): results of at most 4 characters
fall back to `"Untitled Document"`. -/
def get_title_heuristic (firstPage : Option (List TitleLine)) : Chars :=
  if (title_candidate firstPage).length > 4 then title_candidate firstPage
  else "Untitled Document".toList

/-- `get_title` (source lines 10-41): a truthy, non-blank metadata title is
returned whitespace-normalized; everything else goes through the first-page
heuristic. -/
def get_title (metaTitle : Option Chars) (firstPage : Option (List TitleLine)) :
    Chars :=
  match metaTitle with
  | some t =>
    if t ≠ [] ∧ pyStrip t ≠ [] then normWs t else get_title_heuristic firstPage
  | none => get_title_heuristic firstPage

/-- A document as seen through the layout interface: page count, file base
name, optional metadata title, optionally extractable first-page lines,
native TOC, and the pass-1 text blocks in traversal order. -/
structure Doc where
  pageCount : Nat
  fileName : Chars
  metaTitle : Option Chars
  firstPage : Option (List TitleLine)
  toc : List TocEntry
  blocks : List Block
deriving DecidableEq, Repr

/-- The `data` record produced for one document. -/
structure ResultData where
  title : Chars
  outline : List Entry
deriving DecidableEq, Repr

/-- `process_single_pdf` (source lines 285-303): more than 50 pages yields
the synthetic limit record; otherwise title resolution plus the
TOC-before-heuristics outline. -/
def process_single_pdf (d : Doc) : ResultData :=
  if d.pageCount > 50 then
    ⟨d.fileName, [⟨"H1".toList, "Error: PDF exceeds 50 page limit".toList, 1⟩]⟩
  else
    ⟨get_title d.metaTitle d.firstPage,
     outline_for d.toc (extract_outline_heuristically d.blocks)⟩

/-- The batch loop: each document is processed independently
(`pool.map(process_single_pdf, pdf_files)`). -/
def batch_process (docs : List Doc) : List ResultData :=
  docs.map process_single_pdf

/-! ### Auxiliary notions used by the verification -/

/-- Each token is nonempty and contains no whitespace. -/
def GoodToks (toks : List Chars) : Prop :=
  ∀ t ∈ toks, t ≠ [] ∧ ∀ c ∈ t, c.isWhitespace = false

/-- The deduplication key of an outline entry. -/
def entryKey (e : Entry) : Nat × Chars := (e.page, lowerStr e.text)

/-- Numeric rank of a heading level token, mirroring the lexicographic string
order of `H1`, `H2`, `H3`. -/
def levelRank (s : Chars) : Nat :=
  if s = "H1".toList then 1 else if s = "H2".toList then 2 else 3

/-- The depth-filtered, level-mapped image of a native TOC, written exactly as
the specification describes it (for comparison with
`extract_outline_from_toc`). -/
def tocSpecImage (toc : List TocEntry) : List Entry :=
  (toc.filter (fun e => 1 ≤ e.level ∧ e.level ≤ 3)).map
    (fun e => ⟨hLabel e.level, pyStrip e.text, e.page⟩)

/-- The count a histogram associates with `k` (0 when absent). -/
def cnt (k : Nat) (h : List (Nat × Nat)) : Nat := (h.lookup k).getD 0

/-- The keys of a histogram in insertion order. -/
def keysOf (h : List (Nat × Nat)) : List Nat := h.map Prod.fst

/-! ### Character class facts -/

theorem alpha_val_facts (c : Char) (h : c.isAlpha = true) :
    (65 ≤ c.val.toBitVec.toNat ∧ c.val.toBitVec.toNat ≤ 90) ∨
    (97 ≤ c.val.toBitVec.toNat ∧ c.val.toBitVec.toNat ≤ 122) := by
  simp only [Char.isAlpha, Char.isUpper, Char.isLower,
    Bool.or_eq_true, Bool.and_eq_true, decide_eq_true_eq] at h
  simp only [UInt32.le_def, BitVec.le_def] at h
  exact h

theorem alpha_not_digit (c : Char) (h : c.isAlpha = true) : c.isDigit = false := by
  have hv := alpha_val_facts c h
  rw [Bool.eq_false_iff]
  intro hd
  simp only [Char.isDigit, Bool.and_eq_true, decide_eq_true_eq] at hd
  simp only [UInt32.le_def, BitVec.le_def] at hd
  have h48 : (UInt32.toBitVec 48).toNat = 48 := rfl
  have h57 : (UInt32.toBitVec 57).toNat = 57 := rfl
  rw [h48, h57] at hd
  omega

theorem alpha_not_ws (c : Char) (h : c.isAlpha = true) : c.isWhitespace = false := by
  have hv := alpha_val_facts c h
  rw [Bool.eq_false_iff]
  intro hw
  simp only [Char.isWhitespace, Bool.or_eq_true, decide_eq_true_eq] at hw
  have : c.val.toBitVec.toNat = 32 ∨ c.val.toBitVec.toNat = 9 ∨
      c.val.toBitVec.toNat = 13 ∨ c.val.toBitVec.toNat = 10 := by
    rcases hw with ((hw | hw) | hw) | hw <;> rw [hw] <;> simp
  omega

theorem alpha_isWordChar (c : Char) (h : c.isAlpha = true) : isWordChar c = true := by
  simp [isWordChar, Char.isAlphanum, h]

theorem alpha_ne_dollar (c : Char) (h : c.isAlpha = true) : c ≠ '$' := by
  intro hc
  subst hc
  exact absurd h (by decide)

/-! ### `newKeys` facts -/

theorem mem_newKeys {α} [DecidableEq α] {a : α} :
    ∀ {xs seen : List α}, a ∈ newKeys seen xs → a ∉ seen ∧ a ∈ xs := by
  intro xs
  induction xs with
  | nil => intro seen h; simp [newKeys] at h
  | cons x xs ih =>
    intro seen h
    rw [newKeys] at h
    by_cases hx : x ∈ seen
    · rw [if_pos hx] at h
      obtain ⟨h1, h2⟩ := ih h
      exact ⟨h1, List.mem_cons_of_mem _ h2⟩
    · rw [if_neg hx] at h
      rcases List.mem_cons.mp h with rfl | h
      · exact ⟨hx, List.mem_cons_self _ _⟩
      · obtain ⟨h1, h2⟩ := ih h
        refine ⟨fun hs => h1 (List.mem_append_left _ hs), List.mem_cons_of_mem _ h2⟩

theorem newKeys_nodup {α} [DecidableEq α] :
    ∀ (xs seen : List α), (newKeys seen xs).Nodup := by
  intro xs
  induction xs with
  | nil => intro seen; simp [newKeys]
  | cons x xs ih =>
    intro seen
    rw [newKeys]
    by_cases hx : x ∈ seen
    · rw [if_pos hx]; exact ih seen
    · rw [if_neg hx]
      refine List.nodup_cons.mpr ⟨fun hmem => ?_, ih _⟩
      exact (mem_newKeys hmem).1 (List.mem_append_right _ (List.mem_singleton.mpr rfl))

theorem newKeys_complete {α} [DecidableEq α] {x : α} :
    ∀ (xs seen : List α), x ∈ xs → x ∈ seen ∨ x ∈ newKeys seen xs := by
  intro xs
  induction xs with
  | nil => intro seen h; simp at h
  | cons y xs ih =>
    intro seen h
    rw [newKeys]
    by_cases hy : y ∈ seen
    · rw [if_pos hy]
      rcases List.mem_cons.mp h with rfl | h
      · exact Or.inl hy
      · exact ih seen h
    · rw [if_neg hy]
      rcases List.mem_cons.mp h with rfl | h
      · exact Or.inr (List.mem_cons_self _ _)
      · rcases ih (seen ++ [y]) h with hs | hk
        · rcases List.mem_append.mp hs with hs | hs
          · exact Or.inl hs
          · exact Or.inr (List.mem_cons.mpr (Or.inl (List.mem_singleton.mp hs)))
        · exact Or.inr (List.mem_cons_of_mem _ hk)

/-! ### The word-repetition check can never fire -/

/-- Each of `D`'s (distinct) elements occurs at least twice in `ws`, so `ws`
has at least `2 * D.length` elements. -/
theorem two_mul_length_le_of_count {α} [BEq α] [LawfulBEq α] :
    ∀ (D ws : List α), D.Nodup → (∀ d ∈ D, 2 ≤ ws.count d) →
      2 * D.length ≤ ws.length := by
  intro D
  induction D with
  | nil => intro ws _ _; simp
  | cons d D ih =>
    intro ws hnd hcnt
    have hd2 : 2 ≤ ws.count d := hcnt d (List.mem_cons_self _ _)
    have hnd' : D.Nodup := (List.nodup_cons.mp hnd).2
    have hdD : d ∉ D := (List.nodup_cons.mp hnd).1
    set ws' := ws.filter (fun x => !(x == d)) with hws'
    have hlen : ws.length = ws.count d + ws'.length := by
      rw [hws', ← List.countP_eq_length_filter, List.count_eq_countP]
      rw [List.length_eq_countP_add_countP (fun x => x == d) ws]
      congr 1
      exact List.countP_congr (fun a _ => by simp)
    have hcnt' : ∀ e ∈ D, 2 ≤ ws'.count e := by
      intro e he
      have hne : e ≠ d := fun h => hdD (h ▸ he)
      rw [hws', List.count_filter (by simp [hne])]
      exact hcnt e (List.mem_cons_of_mem _ he)
    have := ih ws' hnd' hcnt'
    simp only [List.length_cons]
    omega

/-- The number of distinct repeated words never exceeds half the total word
count. -/
theorem repeatedDistinct_le (ws : List Chars) :
    2 * repeatedDistinct ws ≤ ws.length := by
  unfold repeatedDistinct
  apply two_mul_length_le_of_count
  · exact (newKeys_nodup ws []).filter _
  · intro d hd
    have := List.of_mem_filter hd
    simp only [decide_eq_true_eq] at this
    omega

/-- `clean_text`'s word-repetition rejection compares the distinct-repeated
count against the **total** word count, and therefore never fires. -/
theorem wordRepRejects_eq_false (t : Chars) : wordRepRejects t = false := by
  have h := repeatedDistinct_le (pySplit t)
  unfold wordRepRejects
  rcases Nat.lt_or_ge (2 * repeatedDistinct (pySplit t)) ((pySplit t).length + 1)
    with hlt | hge
  · have : decide (2 * repeatedDistinct (pySplit t) > (pySplit t).length) = false := by
      simp only [decide_eq_false_iff_not]
      omega
    rw [this, Bool.and_false]
  · omega

/-! ### Normalization on well-formed token text

A token list is `GoodToks` when each token is nonempty and whitespace-free;
on the join of a good token list, the normalization pipeline is the identity
and splitting recovers the tokens. -/

theorem joinSp_cons_of_ne_nil {t : Chars} {ts : List Chars} (h : ts ≠ []) :
    joinSp (t :: ts) = t ++ ' ' :: joinSp ts := by
  cases ts with
  | nil => exact absurd rfl h
  | cons t' ts' => rfl

theorem joinSp_head {toks : List Chars} {t : Chars} {ts : List Chars}
    (ht : toks = t :: ts) (hgood : GoodToks toks) :
    ∃ c r, joinSp toks = c :: r ∧ c.isWhitespace = false ∧ c ∈ t := by
  subst ht
  obtain ⟨hne, hws⟩ := hgood t (List.mem_cons_self _ _)
  cases t with
  | nil => exact absurd rfl hne
  | cons c t' =>
    cases ts with
    | nil => exact ⟨c, t', rfl, hws c (List.mem_cons_self _ _), List.mem_cons_self _ _⟩
    | cons u us =>
      exact ⟨c, t' ++ ' ' :: joinSp (u :: us), rfl,
        hws c (List.mem_cons_self _ _), List.mem_cons_self _ _⟩

theorem collapseAux_append_nonws {t : Chars} (h : ∀ c ∈ t, c.isWhitespace = false)
    (r : Chars) : collapseAux false (t ++ r) = t ++ collapseAux false r := by
  induction t with
  | nil => rfl
  | cons c t ih =>
    have hc : c.isWhitespace = false := h c (List.mem_cons_self _ _)
    rw [List.cons_append, collapseAux, if_neg (by simp [hc])]
    rw [ih (fun d hd => h d (List.mem_cons_of_mem _ hd)), List.cons_append]

theorem collapseAux_flag {s : Chars} {c : Char} {r : Chars} (hs : s = c :: r)
    (hc : c.isWhitespace = false) (b : Bool) :
    collapseAux b s = c :: collapseAux false r := by
  subst hs
  rw [collapseAux, if_neg (by simp [hc])]

theorem collapseWs_joinSp {toks : List Chars} (hgood : GoodToks toks) :
    collapseWs (joinSp toks) = joinSp toks := by
  unfold collapseWs
  induction toks with
  | nil => rfl
  | cons t ts ih =>
    have ht := hgood t (List.mem_cons_self _ _)
    cases ts with
    | nil =>
      show collapseAux false t = t
      calc collapseAux false t = collapseAux false (t ++ []) := by rw [List.append_nil]
        _ = t ++ collapseAux false [] := collapseAux_append_nonws ht.2 []
        _ = t := by show t ++ ([] : Chars) = t; exact List.append_nil t
    | cons u us =>
      have hgood' : GoodToks (u :: us) :=
        fun v hv => hgood v (List.mem_cons_of_mem _ hv)
      obtain ⟨c, r, hj, hcw, _⟩ := joinSp_head rfl hgood'
      rw [joinSp_cons_of_ne_nil (by simp), collapseAux_append_nonws ht.2]
      rw [collapseAux, if_pos (by decide), if_neg (by simp)]
      rw [collapseAux_flag hj hcw true, ← collapseAux_flag hj hcw false, ih hgood']

theorem dropWhile_ws_eq_self {s : Chars} {c : Char} {r : Chars}
    (hs : s = c :: r) (hc : c.isWhitespace = false) :
    s.dropWhile Char.isWhitespace = s := by
  subst hs
  exact List.dropWhile_cons_of_neg (by simp [hc])

theorem joinSp_last {toks : List Chars} (hne : toks ≠ [])
    (hgood : GoodToks toks) :
    ∃ c r, (joinSp toks).reverse = c :: r ∧ c.isWhitespace = false := by
  induction toks with
  | nil => exact absurd rfl hne
  | cons t ts ih =>
    obtain ⟨htne, hws⟩ := hgood t (List.mem_cons_self _ _)
    have hgood' : GoodToks ts := fun v hv => hgood v (List.mem_cons_of_mem _ hv)
    cases ts with
    | nil =>
      obtain ⟨c, r, hr⟩ : ∃ c r, t.reverse = c :: r := by
        cases htr : t.reverse with
        | nil => exact absurd (List.reverse_eq_nil_iff.mp htr) htne
        | cons c r => exact ⟨c, r, rfl⟩
      have hc : c ∈ t := List.mem_reverse.mp (hr ▸ List.mem_cons_self _ _)
      exact ⟨c, r, hr, hws c hc⟩
    | cons v vs =>
      obtain ⟨c, r, hr, hcw⟩ := ih (by simp) hgood'
      refine ⟨c, r ++ (' ' :: t.reverse), ?_, hcw⟩
      rw [joinSp_cons_of_ne_nil (by simp), List.reverse_append, List.reverse_cons, hr]
      simp

theorem pyStrip_joinSp {toks : List Chars} (hne : toks ≠ [])
    (hgood : GoodToks toks) : pyStrip (joinSp toks) = joinSp toks := by
  obtain ⟨t, ts, ht⟩ : ∃ t ts, toks = t :: ts := by
    cases toks with
    | nil => exact absurd rfl hne
    | cons t ts => exact ⟨t, ts, rfl⟩
  obtain ⟨c, r, hj, hcw, _⟩ := joinSp_head ht hgood
  obtain ⟨d, q, hd, hdw⟩ := joinSp_last hne hgood
  unfold pyStrip
  rw [dropWhile_ws_eq_self hj hcw, hd,
    List.dropWhile_cons_of_neg (by simp [hdw]), ← hd, List.reverse_reverse]

/-- On the join of a good token list, normalization is the identity. -/
theorem normWs_joinSp {toks : List Chars} (hne : toks ≠ [])
    (hgood : GoodToks toks) : normWs (joinSp toks) = joinSp toks := by
  unfold normWs
  rw [collapseWs_joinSp hgood, pyStrip_joinSp hne hgood]

theorem splitAux_append_nonws {t : Chars} (h : ∀ c ∈ t, c.isWhitespace = false) :
    ∀ (cur r : Chars), splitAux cur (t ++ r) = splitAux (cur ++ t) r := by
  induction t with
  | nil => intro cur r; rw [List.append_nil]; rfl
  | cons c t ih =>
    intro cur r
    have hc : c.isWhitespace = false := h c (List.mem_cons_self _ _)
    rw [List.cons_append, splitAux, if_neg (by simp [hc])]
    rw [ih (fun d hd => h d (List.mem_cons_of_mem _ hd))]
    congr 1
    simp

/-- Splitting the join of a good token list recovers the tokens. -/
theorem pySplit_joinSp {toks : List Chars} (hgood : GoodToks toks) :
    pySplit (joinSp toks) = toks := by
  unfold pySplit
  induction toks with
  | nil => rfl
  | cons t ts ih =>
    obtain ⟨hne, hws⟩ := hgood t (List.mem_cons_self _ _)
    cases ts with
    | nil =>
      show splitAux [] (joinSp [t]) = [t]
      have : splitAux [] (t ++ []) = splitAux ([] ++ t) [] := splitAux_append_nonws hws [] []
      rw [List.append_nil, List.nil_append] at this
      rw [show joinSp [t] = t from rfl, this, splitAux, if_neg hne]
    | cons u us =>
      have hgood' : GoodToks (u :: us) :=
        fun v hv => hgood v (List.mem_cons_of_mem _ hv)
      rw [joinSp_cons_of_ne_nil (by simp), splitAux_append_nonws hws, List.nil_append]
      rw [splitAux, if_pos (by decide), if_neg hne, ih hgood']

/-! ### Pass-2 invariants -/

theorem pass2_spec (body : Nat) (hs : List Nat) (lm : List (Nat × Chars)) :
    ∀ (bs : List Block) (seen : List (Nat × Chars)),
      (∀ e ∈ pass2 body hs lm bs seen, entryKey e ∉ seen) ∧
      List.Pairwise (fun a b => entryKey a ≠ entryKey b) (pass2 body hs lm bs seen) := by
  intro bs
  induction bs with
  | nil =>
    intro seen
    rw [pass2]
    exact ⟨fun e he => absurd he (List.not_mem_nil e), List.Pairwise.nil⟩
  | cons b bs ih =>
    intro seen
    rw [pass2]
    by_cases h1 : clean_text b.text = []
    · simpa [h1] using ih seen
    · rw [if_neg h1]
      by_cases h2 : is_likely_heading (clean_text b.text) b.font_size b.is_bold body hs
      · rw [if_neg (by simp [h2])]
        cases h3 : resolve_level lm b.font_size b.is_bold body with
        | none => exact ih seen
        | some level =>
          dsimp only
          by_cases h4 : (b.page, lowerStr (clean_text b.text)) ∈ seen
          · rw [if_pos h4]
            exact ih seen
          · rw [if_neg h4]
            obtain ⟨ihm, ihp⟩ := ih ((b.page, lowerStr (clean_text b.text)) :: seen)
            constructor
            · intro e he
              rcases List.mem_cons.mp he with rfl | he
              · exact h4
              · exact fun hs' => ihm e he (List.mem_cons_of_mem _ hs')
            · refine List.pairwise_cons.mpr ⟨fun e he => ?_, ihp⟩
              intro hk
              exact ihm e he (hk ▸ List.mem_cons_self _ _)
      · rw [if_pos (by simp [h2])]
        exact ih seen

/-! ### C1 -/

/-- C1 (counterexample): on
`"abcdef abcdef ghijkl ghijkl mnopqr mnopqr stuvwx"` — 48 characters, 7
words, 3 of its 4 distinct words repeated — more than 50% of the distinct
words appear more than once, yet `clean_text` keeps the text unchanged, so
the claimed "exactly when" equivalence fails. -/
theorem C1_counterexample :
    ((normWs ("abcdef abcdef ghijkl ghijkl mnopqr mnopqr stuvwx".toList)).length > 30) ∧
    ((pySplit (normWs ("abcdef abcdef ghijkl ghijkl mnopqr mnopqr stuvwx".toList))).length > 5) ∧
    (2 * repeatedDistinct (pySplit (normWs ("abcdef abcdef ghijkl ghijkl mnopqr mnopqr stuvwx".toList))) >
      (newKeys [] (pySplit (normWs ("abcdef abcdef ghijkl ghijkl mnopqr mnopqr stuvwx".toList)))).length) ∧
    clean_text ("abcdef abcdef ghijkl ghijkl mnopqr mnopqr stuvwx".toList) =
      "abcdef abcdef ghijkl ghijkl mnopqr mnopqr stuvwx".toList := by
  decide

/-- C1 (amended): the word-repetition check of `clean_text` divides the
number of distinct repeated words by the **total** word count (not the
distinct-word count); since every repeated word occurs at least twice, that
ratio never exceeds one half, so the check never rejects, and `clean_text`
returns the empty string only for empty/blank input or through the
garbage-run or special-character checks. -/
theorem C1_theorem : ∀ t : Chars,
    2 * repeatedDistinct (pySplit (normWs t)) ≤ (pySplit (normWs t)).length ∧
    wordRepRejects (normWs t) = false ∧
    (clean_text t = [] → t = [] ∨ normWs t = [] ∨ hasRun7 (normWs t) = true ∨
      5 * specialCount (normWs t) > 3 * (normWs t).length) := by
  intro t
  refine ⟨repeatedDistinct_le _, wordRepRejects_eq_false _, ?_⟩
  intro hclean
  by_cases h0 : t = []
  · exact Or.inl h0
  · rw [clean_text, if_neg h0] at hclean
    simp only [wordRepRejects_eq_false, if_false, Bool.false_eq_true] at hclean
    by_cases h1 : hasRun7 (normWs t) = true
    · exact Or.inr (Or.inr (Or.inl h1))
    · rw [if_neg h1] at hclean
      by_cases h2 : 5 * specialCount (normWs t) > 3 * (normWs t).length
      · exact Or.inr (Or.inr (Or.inr h2))
      · rw [if_neg h2] at hclean
        exact Or.inr (Or.inl hclean)

/-- Witness for C1's amended theorem at the spec's own garbage scenario
`"AAAAAAAAAAAAAAAAAAAA pricing $5,000.00"`: the text is rejected, and the
theorem locates the rejection in the non-word-repetition checks. -/
theorem C1_theorem_witness :
    clean_text ("AAAAAAAAAAAAAAAAAAAA pricing $5,000.00".toList) = [] ∧
    ("AAAAAAAAAAAAAAAAAAAA pricing $5,000.00".toList = ([] : Chars) ∨
      normWs ("AAAAAAAAAAAAAAAAAAAA pricing $5,000.00".toList) = [] ∨
      hasRun7 (normWs ("AAAAAAAAAAAAAAAAAAAA pricing $5,000.00".toList)) = true ∨
      5 * specialCount (normWs ("AAAAAAAAAAAAAAAAAAAA pricing $5,000.00".toList)) >
        3 * (normWs ("AAAAAAAAAAAAAAAAAAAA pricing $5,000.00".toList)).length) :=
  ⟨by decide, (C1_theorem ("AAAAAAAAAAAAAAAAAAAA pricing $5,000.00".toList)).2.2 (by decide)⟩

/-! ### C2 -/

/-- C2 (counterexample): a native TOC with two identical entries passes
through `extract_outline_from_toc` without deduplication, so the produced
outline has two entries sharing the same (page, lowercased text) pair. -/
theorem C2_counterexample :
    extract_outline_from_toc [⟨1, "Intro".toList, 1⟩, ⟨1, "Intro".toList, 1⟩] =
      some [⟨"H1".toList, "Intro".toList, 1⟩, ⟨"H1".toList, "Intro".toList, 1⟩] ∧
    ¬ List.Pairwise (fun a b => entryKey a ≠ entryKey b)
      ([⟨"H1".toList, "Intro".toList, 1⟩, ⟨"H1".toList, "Intro".toList, 1⟩] :
        List Entry) := by
  constructor
  · decide
  · intro hp
    exact (List.pairwise_cons.mp hp).1 _ (List.mem_cons_self _ _) rfl

/-- C2 (amended): every outline produced by **heuristic extraction** has
pairwise distinct (page, lowercased text) keys — later duplicates are
dropped, first occurrences kept; outlines taken from the native TOC are not
deduplicated. -/
theorem C2_theorem (blocks : List Block) :
    List.Pairwise (fun a b => entryKey a ≠ entryKey b)
      (extract_outline_heuristically blocks) := by
  unfold extract_outline_heuristically
  cases mostCommon1 (buildCounts (blocks.map Block.font_size)) with
  | none => exact List.Pairwise.nil
  | some body => exact (pass2_spec body _ _ blocks []).2

/-! ### C10 -/

theorem pyStrip_length_le (s : Chars) : (pyStrip s).length ≤ s.length := by
  unfold pyStrip
  calc ((s.dropWhile Char.isWhitespace).reverse.dropWhile Char.isWhitespace).reverse.length
      = ((s.dropWhile Char.isWhitespace).reverse.dropWhile Char.isWhitespace).length := by
        rw [List.length_reverse]
    _ ≤ (s.dropWhile Char.isWhitespace).reverse.length :=
        (List.dropWhile_sublist _).length_le
    _ = (s.dropWhile Char.isWhitespace).length := by rw [List.length_reverse]
    _ ≤ s.length := (List.dropWhile_sublist _).length_le

theorem is_likely_heading_min_len {text : Chars} {f : Nat} {b : Bool} {body : Nat}
    {hs : List Nat} (h : is_likely_heading text f b body hs = true) :
    2 ≤ (pyStrip text).length := by
  by_contra hlt
  rw [is_likely_heading, if_pos (Or.inr (by omega))] at h
  exact Bool.false_ne_true h

theorem pass2_text_len (body : Nat) (hs : List Nat) (lm : List (Nat × Chars)) :
    ∀ (bs : List Block) (seen : List (Nat × Chars)),
      ∀ e ∈ pass2 body hs lm bs seen, 2 ≤ e.text.length := by
  intro bs
  induction bs with
  | nil =>
    intro seen e he
    rw [pass2] at he
    exact absurd he (List.not_mem_nil e)
  | cons b bs ih =>
    intro seen e he
    rw [pass2] at he
    by_cases h1 : clean_text b.text = []
    · rw [if_pos h1] at he
      exact ih seen e he
    · rw [if_neg h1] at he
      by_cases h2 : is_likely_heading (clean_text b.text) b.font_size b.is_bold body hs
      · rw [if_neg (by simp [h2])] at he
        cases h3 : resolve_level lm b.font_size b.is_bold body with
        | none =>
          rw [h3] at he
          exact ih seen e he
        | some level =>
          rw [h3] at he
          dsimp only at he
          by_cases h4 : (b.page, lowerStr (clean_text b.text)) ∈ seen
          · rw [if_pos h4] at he
            exact ih seen e he
          · rw [if_neg h4] at he
            rcases List.mem_cons.mp he with rfl | he
            · calc 2 ≤ (pyStrip (clean_text b.text)).length := is_likely_heading_min_len h2
                _ ≤ (clean_text b.text).length := pyStrip_length_le _
            · exact ih _ e he
      · rw [if_pos (by simp [h2])] at he
        exact ih seen e he

/-- C10 (confirmed): `is_likely_heading` rejects every text whose stripped
form has fewer than 2 characters, and consequently every entry produced by
heuristic extraction has a text of at least 2 characters. -/
theorem C10_theorem :
    (∀ (text : Chars) (f : Nat) (b : Bool) (body : Nat) (hs : List Nat),
      (pyStrip text).length < 2 → is_likely_heading text f b body hs = false) ∧
    (∀ (blocks : List Block), ∀ e ∈ extract_outline_heuristically blocks,
      2 ≤ e.text.length) := by
  constructor
  · intro text f b body hs h
    rw [is_likely_heading, if_pos (Or.inr h)]
  · intro blocks e he
    unfold extract_outline_heuristically at he
    revert he
    cases mostCommon1 (buildCounts (blocks.map Block.font_size)) with
    | none => intro he; exact absurd he (List.not_mem_nil e)
    | some body => intro he; exact pass2_text_len body _ _ blocks [] e he

/-- Witness for C10 at concrete inputs: the one-character text `"x"` is
rejected whatever the font signals, and the single entry produced from a
`"1.1 Overview"` block has text length at least 2. -/
theorem C10_theorem_witness :
    is_likely_heading ("x".toList) 99 true 0 [] = false ∧
    2 ≤ (Entry.text ⟨"H3".toList, "1.1 Overview".toList, 3⟩).length :=
  ⟨C10_theorem.1 ("x".toList) 99 true 0 [] (by decide),
   C10_theorem.2 [⟨"1.1 Overview".toList, 10, true, 3⟩]
     ⟨"H3".toList, "1.1 Overview".toList, 3⟩ (by decide)⟩

/-! ### C6 -/

/-- C6 (confirmed): when a heading block's font size has no `size_to_level`
entry, `resolve_level` yields `H3` exactly for bold blocks at least as large
as the body size and skips the block otherwise; and the spec's scenario — a
bold `"1.1 Overview"` block at size 10 on page 3 in a document of body size
10 with no ranked heading sizes — is emitted as the single `H3` entry on
page 3. -/
theorem C6_theorem :
    (∀ (lm : List (Nat × Chars)) (fs : Nat) (bold : Bool) (body : Nat),
      List.lookup fs lm = none →
        ((resolve_level lm fs bold body = some ("H3".toList) ↔
          bold = true ∧ body ≤ fs) ∧
         (¬(bold = true ∧ body ≤ fs) → resolve_level lm fs bold body = none))) ∧
    (List.lookup 10 (size_to_level (headingSizesOf (buildCounts [10, 10, 10]) 10)) =
      none) ∧
    extract_outline_heuristically
      [⟨"lorem ipsum 123.".toList, 10, false, 1⟩,
       ⟨"lorem ipsum 456.".toList, 10, false, 2⟩,
       ⟨"1.1 Overview".toList, 10, true, 3⟩] =
      [⟨"H3".toList, "1.1 Overview".toList, 3⟩] := by
  refine ⟨?_, by decide, by decide⟩
  intro lm fs bold body hnone
  unfold resolve_level
  rw [hnone]
  by_cases hc : bold = true ∧ body ≤ fs
  · rw [if_pos (by simp [hc.1, hc.2])]
    simp [hc]
  · rw [if_neg (by
      intro hb
      rcases Bool.and_eq_true _ _ |>.mp hb with ⟨hb1, hb2⟩
      exact hc ⟨hb1, by simpa using hb2⟩)]
    simp [hc]

/-- Witness for C6's general clause: with an empty level map, a bold block at
exactly the body size resolves to `H3`, and a non-bold one is skipped. -/
theorem C6_theorem_witness :
    resolve_level [] 10 true 10 = some ("H3".toList) ∧
    resolve_level [] 10 false 10 = none :=
  ⟨((C6_theorem.1 [] 10 true 10 rfl).1).mpr ⟨rfl, le_refl 10⟩,
   (C6_theorem.1 [] 10 false 10 rfl).2 (by simp)⟩

/-! ### C7 -/

theorem lookup_map_H3 {x : Nat} :
    ∀ {rest : List Nat}, x ∈ rest →
      List.lookup x (rest.map (fun s => (s, "H3".toList))) = some ("H3".toList) := by
  intro rest
  induction rest with
  | nil => intro h; exact absurd h (List.not_mem_nil x)
  | cons r rs ih =>
    intro h
    by_cases hx : x = r
    · subst hx
      simp [List.lookup]
    · rcases List.mem_cons.mp h with h | h
      · exact absurd h hx
      · simp only [List.map_cons, List.lookup, beq_eq_false_iff_ne.mpr hx]
        exact ih h

theorem stl_lookup (a b : Nat) (rest : List Nat)
    (hp : List.Pairwise (· > ·) (a :: b :: rest)) :
    List.lookup a (size_to_level (a :: b :: rest)) = some ("H1".toList) ∧
    List.lookup b (size_to_level (a :: b :: rest)) = some ("H2".toList) ∧
    ∀ c ∈ rest, List.lookup c (size_to_level (a :: b :: rest)) = some ("H3".toList) := by
  have hab : a ≠ b := by
    have := (List.pairwise_cons.mp hp).1 b (List.mem_cons_self _ _)
    omega
  have hbr : ∀ c ∈ rest, b ≠ c := by
    intro c hc
    have := (List.pairwise_cons.mp (List.pairwise_cons.mp hp).2).1 c hc
    omega
  have har : ∀ c ∈ rest, a ≠ c := by
    intro c hc
    have := (List.pairwise_cons.mp hp).1 c (List.mem_cons_of_mem _ hc)
    omega
  cases rest with
  | nil =>
    exact ⟨by simp [size_to_level, List.lookup],
      by simp [size_to_level, List.lookup, beq_eq_false_iff_ne.mpr (Ne.symm hab)],
      fun c hc => absurd hc (List.not_mem_nil c)⟩
  | cons r rs =>
    refine ⟨by simp [size_to_level, List.lookup], ?_, ?_⟩
    · simp [size_to_level, List.lookup, beq_eq_false_iff_ne.mpr (Ne.symm hab)]
    · intro c hc
      have h1 : (c == a) = false := beq_eq_false_iff_ne.mpr (Ne.symm (har c hc))
      have h2 : (c == b) = false := beq_eq_false_iff_ne.mpr (Ne.symm (hbr c hc))
      simp only [size_to_level, List.lookup, h1, h2]
      exact lookup_map_H3 hc

/-- C7 (confirmed): the level map sends the empty ranking to the empty map, a
single size to `H1`, the two largest sizes to `H1` and `H2`, and every
remaining size to `H3`; consequently along the strictly descending ranking,
larger heading sizes never get a lexicographically larger level. -/
theorem C7_theorem : ∀ hs : List Nat,
    (hs = [] → size_to_level hs = []) ∧
    (∀ a, hs = [a] → size_to_level hs = [(a, "H1".toList)]) ∧
    (∀ a b rest, hs = a :: b :: rest → List.Pairwise (· > ·) hs →
      List.lookup a (size_to_level hs) = some ("H1".toList) ∧
      List.lookup b (size_to_level hs) = some ("H2".toList) ∧
      ∀ c ∈ rest, List.lookup c (size_to_level hs) = some ("H3".toList)) ∧
    (List.Pairwise (· > ·) hs → ∀ a b, a ∈ hs → b ∈ hs → a > b →
      ∃ la lb, List.lookup a (size_to_level hs) = some la ∧
        List.lookup b (size_to_level hs) = some lb ∧ levelRank la ≤ levelRank lb) := by
  intro hs
  refine ⟨fun h => by subst h; rfl, fun a h => by subst h; rfl, ?_, ?_⟩
  · intro a b rest h hp
    subst h
    exact stl_lookup a b rest hp
  · intro hp a b ha hb hab
    cases hs with
    | nil => exact absurd ha (List.not_mem_nil a)
    | cons x ts =>
      cases ts with
      | nil =>
        rw [List.mem_singleton.mp ha, List.mem_singleton.mp hb] at hab
        omega
      | cons y rest =>
        obtain ⟨hl1, hl2, hl3⟩ := stl_lookup x y rest hp
        have hxy : x > y := (List.pairwise_cons.mp hp).1 y (List.mem_cons_self _ _)
        have hx_all : ∀ z ∈ y :: rest, x > z := (List.pairwise_cons.mp hp).1
        have hy_all : ∀ z ∈ rest, y > z :=
          (List.pairwise_cons.mp (List.pairwise_cons.mp hp).2).1
        rcases List.mem_cons.mp ha with rfl | ha'
        · rcases List.mem_cons.mp hb with rfl | hb'
          · omega
          · rcases List.mem_cons.mp hb' with rfl | hb''
            · exact ⟨_, _, hl1, hl2, by decide⟩
            · exact ⟨_, _, hl1, hl3 b hb'', by decide⟩
        · rcases List.mem_cons.mp ha' with rfl | ha''
          · rcases List.mem_cons.mp hb with rfl | hb'
            · omega
            · rcases List.mem_cons.mp hb' with rfl | hb''
              · omega
              · exact ⟨_, _, hl2, hl3 b hb'', by decide⟩
          · rcases List.mem_cons.mp hb with rfl | hb'
            · have := hx_all a (List.mem_cons_of_mem _ ha'')
              omega
            · rcases List.mem_cons.mp hb' with rfl | hb''
              · have := hy_all a ha''
                omega
              · exact ⟨_, _, hl3 a ha'', hl3 b hb'', le_refl _⟩

/-- Witness for C7 at the concrete ranking `[30, 20, 12, 10]`: `20` maps to
`H2`, `10` to `H3`, with non-decreasing level rank. -/
theorem C7_theorem_witness :
    ∃ la lb, List.lookup 20 (size_to_level [30, 20, 12, 10]) = some la ∧
      List.lookup 10 (size_to_level [30, 20, 12, 10]) = some lb ∧
      levelRank la ≤ levelRank lb :=
  (C7_theorem [30, 20, 12, 10]).2.2.2 (by decide) 20 10 (by decide) (by decide)
    (by decide)

/-! ### C3 -/

theorem toc_filterMap_eq (toc : List TocEntry) :
    toc.filterMap (fun e =>
      if 1 ≤ e.level ∧ e.level ≤ 3 then
        some (⟨hLabel e.level, pyStrip e.text, e.page⟩ : Entry)
      else none) = tocSpecImage toc := by
  induction toc with
  | nil => rfl
  | cons e toc ih =>
    by_cases h : 1 ≤ e.level ∧ e.level ≤ 3
    · rw [List.filterMap_cons_some (by rw [if_pos h])]
      rw [tocSpecImage, List.filter_cons_of_pos (by simpa using h), List.map_cons]
      rw [ih]
      rfl
    · rw [List.filterMap_cons_none (by rw [if_neg h])]
      rw [tocSpecImage, List.filter_cons_of_neg (by simpa using h)]
      exact ih

theorem tocSpecImage_ne_nil {toc : List TocEntry}
    (h : ∃ e ∈ toc, 1 ≤ e.level ∧ e.level ≤ 3) : tocSpecImage toc ≠ [] := by
  obtain ⟨e, he, h13⟩ := h
  have hmem : e ∈ toc.filter (fun e => 1 ≤ e.level ∧ e.level ≤ 3) :=
    List.mem_filter.mpr ⟨he, by simpa using h13⟩
  intro hnil
  rw [tocSpecImage, List.map_eq_nil_iff] at hnil
  rw [hnil] at hmem
  exact List.not_mem_nil e hmem

theorem toc_extract_eq {toc : List TocEntry} (hne : toc ≠ [])
    (h : ∃ e ∈ toc, 1 ≤ e.level ∧ e.level ≤ 3) :
    extract_outline_from_toc toc = some (tocSpecImage toc) := by
  rw [extract_outline_from_toc, if_neg hne, toc_filterMap_eq,
    if_neg (tocSpecImage_ne_nil h)]

/-- C3 (counterexample): a 60-page document with a perfectly usable native
outline still gets the synthetic page-limit outline, not the mapped native
entries, so the claim fails without a page-count proviso. -/
theorem C3_counterexample :
    (process_single_pdf
      ⟨60, "file.pdf".toList, none, none, [⟨1, "Intro".toList, 1⟩], []⟩).outline =
      [⟨"H1".toList, "Error: PDF exceeds 50 page limit".toList, 1⟩] ∧
    tocSpecImage [⟨1, "Intro".toList, 1⟩] = [⟨"H1".toList, "Intro".toList, 1⟩] ∧
    (process_single_pdf
      ⟨60, "file.pdf".toList, none, none, [⟨1, "Intro".toList, 1⟩], []⟩).outline ≠
      tocSpecImage [⟨1, "Intro".toList, 1⟩] := by
  decide

/-- C3 (amended): for every document within the 50-page limit whose native
outline is non-empty and has at least one entry of depth 1-3, the output
outline is exactly the depth-1-3 native entries in original order (text
whitespace-stripped, depth d mapped to `Hd`, deeper entries discarded), and
the heuristic extraction result is never consulted: the output does not
depend on the document's text blocks at all. -/
theorem C3_theorem (d : Doc) (hpc : d.pageCount ≤ 50) (hne : d.toc ≠ [])
    (hq : ∃ e ∈ d.toc, 1 ≤ e.level ∧ e.level ≤ 3) :
    (process_single_pdf d).outline = tocSpecImage d.toc ∧
    ∀ bl : List Block,
      (process_single_pdf { d with blocks := bl }).outline = tocSpecImage d.toc := by
  have houtline : ∀ heur, outline_for d.toc heur = tocSpecImage d.toc := by
    intro heur
    rw [outline_for, toc_extract_eq hne hq]
    dsimp only
    rw [if_neg (tocSpecImage_ne_nil hq)]
  constructor
  · rw [process_single_pdf, if_neg (by omega)]
    exact houtline _
  · intro bl
    rw [process_single_pdf, if_neg (by simpa using hpc)]
    exact houtline _

/-- Witness for C3 at the spec's scenario TOC
`[(1,"Intro",1), (2,"Details",2), (4,"Deep",5)]`: the depth-4 entry is
dropped and the output mirrors the rest, ignoring a block that heuristic
extraction would have turned into a heading. -/
theorem C3_theorem_witness :
    (process_single_pdf
      ⟨3, "file.pdf".toList, none, none,
       [⟨1, "Intro".toList, 1⟩, ⟨2, "Details".toList, 2⟩, ⟨4, "Deep".toList, 5⟩],
       [⟨"1.1 Overview".toList, 10, true, 3⟩]⟩).outline =
      [⟨"H1".toList, "Intro".toList, 1⟩, ⟨"H2".toList, "Details".toList, 2⟩] :=
  (C3_theorem
    ⟨3, "file.pdf".toList, none, none,
     [⟨1, "Intro".toList, 1⟩, ⟨2, "Details".toList, 2⟩, ⟨4, "Deep".toList, 5⟩],
     [⟨"1.1 Overview".toList, 10, true, 3⟩]⟩
    (by decide) (by decide)
    ⟨⟨1, "Intro".toList, 1⟩, by decide, by decide⟩).1.trans (by decide)

/-! ### C8 -/

/-- C8 (confirmed): past the 50-page bound the output record is synthetic —
title is the file name, the outline is the single page-1 `H1` limit entry —
regardless of metadata, TOC or blocks; and in the batch each document's
record depends only on that document, so only the offending document is
affected. -/
theorem C8_theorem (d : Doc) (hpc : d.pageCount > 50) :
    process_single_pdf d =
      ⟨d.fileName, [⟨"H1".toList, "Error: PDF exceeds 50 page limit".toList, 1⟩]⟩ ∧
    ∀ docs1 docs2 : List Doc,
      batch_process (docs1 ++ d :: docs2) =
        batch_process docs1 ++ process_single_pdf d :: batch_process docs2 := by
  constructor
  · rw [process_single_pdf, if_pos hpc]
  · intro docs1 docs2
    unfold batch_process
    rw [List.map_append, List.map_cons]

/-- Witness for C8 at a concrete 60-page document. -/
theorem C8_theorem_witness :
    process_single_pdf
      ⟨60, "big.pdf".toList, some ("Nice Title".toList), none,
       [⟨1, "Intro".toList, 1⟩], [⟨"1.1 Overview".toList, 10, true, 3⟩]⟩ =
      ⟨"big.pdf".toList,
       [⟨"H1".toList, "Error: PDF exceeds 50 page limit".toList, 1⟩]⟩ :=
  (C8_theorem _ (by decide)).1

/-! ### C4 -/

theorem mem_dropWhile_ws {c : Char} (hcw : c.isWhitespace = false) :
    ∀ {s : Chars}, c ∈ s → c ∈ s.dropWhile Char.isWhitespace := by
  intro s
  induction s with
  | nil => intro h; exact absurd h (List.not_mem_nil c)
  | cons d s ih =>
    intro h
    by_cases hd : d.isWhitespace
    · rw [List.dropWhile_cons_of_pos (by simpa using hd)]
      rcases List.mem_cons.mp h with rfl | h
      · rw [hd] at hcw; exact absurd hcw (by simp)
      · exact ih h
    · rwa [List.dropWhile_cons_of_neg (by simpa using hd)]

theorem pyStrip_ne_nil_of_mem {c : Char} {s : Chars} (hc : c ∈ s)
    (hcw : c.isWhitespace = false) : pyStrip s ≠ [] := by
  have h1 : c ∈ s.dropWhile Char.isWhitespace := mem_dropWhile_ws hcw hc
  have h2 : c ∈ (s.dropWhile Char.isWhitespace).reverse := List.mem_reverse.mpr h1
  have h3 : c ∈ (s.dropWhile Char.isWhitespace).reverse.dropWhile Char.isWhitespace :=
    mem_dropWhile_ws hcw h2
  have h4 : c ∈ pyStrip s := List.mem_reverse.mpr h3
  exact List.ne_nil_of_mem h4

theorem mem_collapseAux {c : Char} (hcw : c.isWhitespace = false) :
    ∀ {s : Chars} (b : Bool), c ∈ s → c ∈ collapseAux b s := by
  intro s
  induction s with
  | nil => intro b h; exact absurd h (List.not_mem_nil c)
  | cons d s ih =>
    intro b h
    by_cases hd : d.isWhitespace
    · rcases List.mem_cons.mp h with rfl | h
      · rw [hd] at hcw; exact absurd hcw (by simp)
      · rw [collapseAux, if_pos (by simpa using hd)]
        cases b with
        | true => exact ih true h
        | false => exact List.mem_cons_of_mem _ (ih true h)
    · rw [collapseAux, if_neg (by simpa using hd)]
      rcases List.mem_cons.mp h with rfl | h
      · exact List.mem_cons_self _ _
      · exact List.mem_cons_of_mem _ (ih false h)

theorem dropWhile_ws_shape (s : Chars) :
    s.dropWhile Char.isWhitespace = [] ∨
    ∃ c r, s.dropWhile Char.isWhitespace = c :: r ∧ c.isWhitespace = false := by
  induction s with
  | nil => exact Or.inl rfl
  | cons d s ih =>
    by_cases hd : d.isWhitespace
    · rwa [List.dropWhile_cons_of_pos (by simpa using hd)]
    · rw [List.dropWhile_cons_of_neg (by simpa using hd)]
      exact Or.inr ⟨d, s, rfl, by simpa using hd⟩

theorem exists_nonws_of_pyStrip_ne_nil {t : Chars} (h : pyStrip t ≠ []) :
    ∃ c ∈ t, c.isWhitespace = false := by
  rcases dropWhile_ws_shape t with hnil | ⟨c, r, hcr, hcw⟩
  · exfalso
    apply h
    unfold pyStrip
    rw [hnil]
    rfl
  · refine ⟨c, ?_, hcw⟩
    exact (List.dropWhile_sublist _).subset (hcr ▸ List.mem_cons_self _ _)

theorem normWs_ne_nil {t : Chars} (h : pyStrip t ≠ []) : normWs t ≠ [] := by
  obtain ⟨c, hc, hcw⟩ := exists_nonws_of_pyStrip_ne_nil h
  exact pyStrip_ne_nil_of_mem (mem_collapseAux hcw false hc) hcw

/-- C4 (confirmed): `get_title` never returns the empty string; a truthy,
non-blank metadata title is returned whitespace-normalized without further
checks; blank or absent metadata falls to the first-page heuristic, where an
extraction failure, an empty candidate map, or a candidate of at most 4
characters each yield `"Untitled Document"`, and a longer candidate is
returned as is. -/
theorem C4_theorem :
    (∀ (mt : Option Chars) (fp : Option (List TitleLine)), get_title mt fp ≠ []) ∧
    (∀ (t : Chars) (fp : Option (List TitleLine)), t ≠ [] → pyStrip t ≠ [] →
      get_title (some t) fp = normWs t) ∧
    (∀ fp, get_title none fp = get_title_heuristic fp) ∧
    (∀ (t : Chars) (fp : Option (List TitleLine)), t = [] ∨ pyStrip t = [] →
      get_title (some t) fp = get_title_heuristic fp) ∧
    (title_candidate none = "Untitled Document".toList) ∧
    (∀ lines, buildCands lines = [] →
      title_candidate (some lines) = "Untitled Document".toList) ∧
    (∀ fp, (title_candidate fp).length ≤ 4 →
      get_title_heuristic fp = "Untitled Document".toList) ∧
    (∀ fp, (title_candidate fp).length > 4 →
      get_title_heuristic fp = title_candidate fp) := by
  have hheur : ∀ fp, get_title_heuristic fp ≠ [] := by
    intro fp
    rw [get_title_heuristic]
    by_cases h : (title_candidate fp).length > 4
    · rw [if_pos h]
      intro hnil
      rw [hnil] at h
      simp at h
    · rw [if_neg h]
      decide
  refine ⟨?_, ?_, ?_, ?_, rfl, ?_, ?_, ?_⟩
  · intro mt fp
    cases mt with
    | none => exact hheur fp
    | some t =>
      rw [get_title]
      by_cases h : t ≠ [] ∧ pyStrip t ≠ []
      · rw [if_pos h]
        exact normWs_ne_nil h.2
      · rw [if_neg h]
        exact hheur fp
  · intro t fp h1 h2
    rw [get_title, if_pos ⟨h1, h2⟩]
  · intro fp
    rw [get_title]
  · intro t fp h
    rw [get_title, if_neg (by
      intro hc
      rcases h with h | h
      · exact hc.1 h
      · exact hc.2 h)]
  · intro lines h
    rw [title_candidate, if_pos h]
  · intro fp h
    rw [get_title_heuristic, if_neg (by omega)]
  · intro fp h
    rw [get_title_heuristic, if_pos h]

/-- Witness for C4 at concrete inputs: a messy metadata title is normalized,
absent metadata with two largest-font lines gives their join, a blank
metadata title with no first page falls back, and a short heuristic result
falls back. -/
theorem C4_theorem_witness :
    get_title (some ("  My   Title ".toList)) none = "My Title".toList ∧
    get_title none (some [("Annual".toList, 24), ("Report".toList, 24),
      ("body text here".toList, 10)]) = "Annual Report".toList ∧
    get_title (some ("   ".toList)) none = "Untitled Document".toList ∧
    get_title none (some [("Hi".toList, 24)]) = "Untitled Document".toList ∧
    get_title (some ("  My   Title ".toList)) none ≠ [] :=
  ⟨(C4_theorem.2.1 ("  My   Title ".toList) none (by decide) (by decide)).trans
      (by decide),
   (C4_theorem.2.2.1 _).trans (by decide),
   ((C4_theorem.2.2.2.1 ("   ".toList) none (Or.inr (by decide))).trans
      ((C4_theorem.2.2.2.2.2.2.2 none (by decide)).trans C4_theorem.2.2.2.2.1)),
   ((C4_theorem.2.2.1 _).trans (C4_theorem.2.2.2.2.2.2.1 _ (by decide))),
   C4_theorem.1 _ _⟩

/-! ### C5: the histogram and `most_common(1)` -/

theorem cnt_nil (k : Nat) : cnt k [] = 0 := rfl

theorem cnt_bump_same (k : Nat) : ∀ h, cnt k (bumpCount k h) = cnt k h + 1 := by
  intro h
  induction h with
  | nil => simp [bumpCount, cnt, List.lookup]
  | cons p rest ih =>
    obtain ⟨a, n⟩ := p
    rw [bumpCount]
    by_cases hak : a = k
    · subst hak
      simp [cnt, List.lookup]
    · rw [if_neg hak]
      simp only [cnt, List.lookup, beq_eq_false_iff_ne.mpr (Ne.symm hak)]
      exact ih

theorem cnt_bump_other {k j : Nat} (hkj : k ≠ j) :
    ∀ h, cnt k (bumpCount j h) = cnt k h := by
  intro h
  induction h with
  | nil => simp [bumpCount, cnt, List.lookup, beq_eq_false_iff_ne.mpr hkj]
  | cons p rest ih =>
    obtain ⟨a, n⟩ := p
    rw [bumpCount]
    by_cases haj : a = j
    · subst haj
      simp [cnt, List.lookup, beq_eq_false_iff_ne.mpr hkj]
    · rw [if_neg haj]
      by_cases hka : k = a
      · subst hka
        simp [cnt, List.lookup]
      · simp only [cnt, List.lookup, beq_eq_false_iff_ne.mpr hka]
        exact ih

theorem keys_bump (j : Nat) : ∀ h, keysOf (bumpCount j h) =
    if j ∈ keysOf h then keysOf h else keysOf h ++ [j] := by
  intro h
  induction h with
  | nil => rfl
  | cons p rest ih =>
    obtain ⟨a, n⟩ := p
    rw [bumpCount]
    by_cases haj : a = j
    · subst haj
      rw [if_pos rfl]
      simp [keysOf]
    · rw [if_neg haj]
      have h1 : keysOf ((a, n) :: bumpCount j rest) = a :: keysOf (bumpCount j rest) := rfl
      have h2 : keysOf ((a, n) :: rest) = a :: keysOf rest := rfl
      rw [h1, h2, ih]
      by_cases hj : j ∈ keysOf rest
      · rw [if_pos hj, if_pos (List.mem_cons_of_mem _ hj)]
      · rw [if_neg hj, if_neg (by
          intro hc
          rcases List.mem_cons.mp hc with hc | hc
          · exact haj hc.symm
          · exact hj hc)]
        rfl

theorem cnt_foldl (k : Nat) : ∀ (rest : List Nat) (h : List (Nat × Nat)),
    cnt k (rest.foldl (fun acc x => bumpCount x acc) h) = cnt k h + rest.count k := by
  intro rest
  induction rest with
  | nil => intro h; simp
  | cons x xs ih =>
    intro h
    rw [List.foldl_cons, ih]
    by_cases hkx : k = x
    · subst hkx
      rw [cnt_bump_same, List.count_cons_self]
      omega
    · rw [cnt_bump_other hkx, List.count_cons_of_ne hkx]

theorem keys_foldl : ∀ (rest : List Nat) (h : List (Nat × Nat)),
    keysOf (rest.foldl (fun acc x => bumpCount x acc) h) =
      keysOf h ++ newKeys (keysOf h) rest := by
  intro rest
  induction rest with
  | nil => intro h; simp [newKeys]
  | cons x xs ih =>
    intro h
    rw [List.foldl_cons, ih, keys_bump, newKeys]
    by_cases hx : x ∈ keysOf h
    · rw [if_pos hx, if_pos hx]
    · rw [if_neg hx, if_neg hx]
      simp

theorem newKeys_pairwise_idx {α} [DecidableEq α] :
    ∀ (xs seen : List α),
      (newKeys seen xs).Pairwise (fun a b => xs.indexOf a < xs.indexOf b) := by
  intro xs
  induction xs with
  | nil => intro seen; simp [newKeys]
  | cons x xs ih =>
    intro seen
    rw [newKeys]
    by_cases hx : x ∈ seen
    · rw [if_pos hx]
      refine (ih seen).imp_of_mem ?_
      intro a b ha hb hr
      have hax : a ≠ x := fun h => (mem_newKeys ha).1 (h ▸ hx)
      have hbx : b ≠ x := fun h => (mem_newKeys hb).1 (h ▸ hx)
      rw [List.indexOf_cons_ne _ (Ne.symm hax), List.indexOf_cons_ne _ (Ne.symm hbx)]
      omega
    · rw [if_neg hx]
      refine List.pairwise_cons.mpr ⟨?_, ?_⟩
      · intro b hb
        have hbx : b ≠ x := fun h =>
          (mem_newKeys hb).1 (h ▸ List.mem_append_right _ (List.mem_singleton.mpr rfl))
        rw [List.indexOf_cons_self, List.indexOf_cons_ne _ (Ne.symm hbx)]
        omega
      · refine (ih (seen ++ [x])).imp_of_mem ?_
        intro a b ha hb hr
        have hax : a ≠ x := fun h =>
          (mem_newKeys ha).1 (h ▸ List.mem_append_right _ (List.mem_singleton.mpr rfl))
        have hbx : b ≠ x := fun h =>
          (mem_newKeys hb).1 (h ▸ List.mem_append_right _ (List.mem_singleton.mpr rfl))
        rw [List.indexOf_cons_ne _ (Ne.symm hax), List.indexOf_cons_ne _ (Ne.symm hbx)]
        omega

theorem entry_cnt : ∀ {h : List (Nat × Nat)}, (keysOf h).Nodup →
    ∀ p ∈ h, p.2 = cnt p.1 h := by
  intro h
  induction h with
  | nil => intro _ p hp; exact absurd hp (List.not_mem_nil p)
  | cons q rest ih =>
    obtain ⟨a, n⟩ := q
    intro hnd p hp
    have hnd' : (keysOf rest).Nodup := (List.nodup_cons.mp hnd).2
    have hana : a ∉ keysOf rest := (List.nodup_cons.mp hnd).1
    rcases List.mem_cons.mp hp with rfl | hp
    · simp [cnt, List.lookup]
    · have hpa : p.1 ≠ a := by
        intro hc
        exact hana (hc ▸ List.mem_map_of_mem Prod.fst hp)
      simp only [cnt, List.lookup, beq_eq_false_iff_ne.mpr hpa]
      exact ih hnd' p hp

theorem mcGo_spec : ∀ (rest : List (Nat × Nat)) (a n),
    (mcGo a n rest = a ∧ ∀ p ∈ rest, p.2 ≤ n) ∨
    (∃ L1 p L2, rest = L1 ++ p :: L2 ∧ mcGo a n rest = p.1 ∧ n < p.2 ∧
      (∀ q ∈ L1, q.2 < p.2) ∧ (∀ q ∈ L2, q.2 ≤ p.2)) := by
  intro rest
  induction rest with
  | nil => intro a n; exact Or.inl ⟨rfl, fun p hp => absurd hp (List.not_mem_nil p)⟩
  | cons q rest ih =>
    obtain ⟨b, m⟩ := q
    intro a n
    rw [mcGo]
    by_cases hmn : m > n
    · rw [if_pos hmn]
      rcases ih b m with ⟨heq, hle⟩ | ⟨L1, p, L2, hdec, heq, hlt, hL1, hL2⟩
      · refine Or.inr ⟨[], (b, m), rest, by simp, heq, hmn, ?_, hle⟩
        intro q hq
        exact absurd hq (List.not_mem_nil q)
      · refine Or.inr ⟨(b, m) :: L1, p, L2, by rw [hdec, List.cons_append], heq,
          by omega, ?_, hL2⟩
        intro q hq
        rcases List.mem_cons.mp hq with rfl | hq
        · exact hlt
        · exact hL1 q hq
    · rw [if_neg hmn]
      rcases ih a n with ⟨heq, hle⟩ | ⟨L1, p, L2, hdec, heq, hlt, hL1, hL2⟩
      · refine Or.inl ⟨heq, ?_⟩
        intro q hq
        rcases List.mem_cons.mp hq with rfl | hq
        · omega
        · exact hle q hq
      · refine Or.inr ⟨(b, m) :: L1, p, L2, by rw [hdec, List.cons_append], heq,
          hlt, ?_, hL2⟩
        intro q hq
        rcases List.mem_cons.mp hq with rfl | hq
        · omega
        · exact hL1 q hq

theorem mostCommon1_spec {h : List (Nat × Nat)} (hne : h ≠ []) :
    ∃ L1 s c L2, h = L1 ++ (s, c) :: L2 ∧ mostCommon1 h = some s ∧
      (∀ q ∈ L1, q.2 < c) ∧ (∀ q ∈ h, q.2 ≤ c) := by
  cases h with
  | nil => exact absurd rfl hne
  | cons q rest =>
    obtain ⟨k0, n0⟩ := q
    rw [mostCommon1]
    rcases mcGo_spec rest k0 n0 with ⟨heq, hle⟩ | ⟨L1, p, L2, hdec, heq, hlt, hL1, hL2⟩
    · refine ⟨[], k0, n0, rest, by simp, by rw [heq], ?_, ?_⟩
      · intro q hq
        exact absurd hq (List.not_mem_nil q)
      · intro q hq
        rcases List.mem_cons.mp hq with rfl | hq
        · omega
        · exact hle q hq
    · obtain ⟨p1, p2⟩ := p
      refine ⟨(k0, n0) :: L1, p1, p2, L2, by rw [hdec, List.cons_append],
        by rw [heq], ?_, ?_⟩
      · intro q hq
        rcases List.mem_cons.mp hq with rfl | hq
        · exact hlt
        · exact hL1 q hq
      · intro q hq
        rcases List.mem_cons.mp hq with rfl | hq
        · omega
        · rw [hdec] at hq
          rcases List.mem_append.mp hq with hq | hq
          · have := hL1 q hq
            omega
          · rcases List.mem_cons.mp hq with rfl | hq
            · omega
            · exact hL2 q hq

/-- C5 (confirmed): for a nonempty block list, `most_common(1)` yields a size
of maximal count in the traversal's font-size multiset, and among the sizes
tying for that maximal count it is the one first encountered in
page-then-block traversal order. -/
theorem C5_theorem (blocks : List Block) (hne : blocks ≠ []) :
    ∃ s, mostCommon1 (buildCounts (blocks.map Block.font_size)) = some s ∧
      s ∈ blocks.map Block.font_size ∧
      (∀ t ∈ blocks.map Block.font_size,
        (blocks.map Block.font_size).count t ≤ (blocks.map Block.font_size).count s) ∧
      (∀ t ∈ blocks.map Block.font_size,
        (blocks.map Block.font_size).count t = (blocks.map Block.font_size).count s →
        (blocks.map Block.font_size).indexOf s ≤ (blocks.map Block.font_size).indexOf t) := by
  set sizes := blocks.map Block.font_size with hsizes
  have hsne : sizes ≠ [] := by
    rw [hsizes]
    intro hc
    exact hne (List.map_eq_nil_iff.mp hc)
  set h := buildCounts sizes with hh
  have hkeys : keysOf h = newKeys [] sizes := by
    rw [hh]
    unfold buildCounts
    rw [keys_foldl]
    rfl
  have hcnt_all : ∀ k, cnt k h = sizes.count k := by
    intro k
    rw [hh]
    unfold buildCounts
    rw [cnt_foldl, cnt_nil]
    omega
  have hnodup : (keysOf h).Nodup := by
    rw [hkeys]
    exact newKeys_nodup sizes []
  have hhne : h ≠ [] := by
    intro hc
    cases hx : sizes with
    | nil => exact hsne hx
    | cons x xs =>
      have : keysOf h = [] := by rw [hc]; rfl
      rw [hkeys, hx, newKeys] at this
      rw [if_neg (List.not_mem_nil x)] at this
      exact List.cons_ne_nil _ _ this
  obtain ⟨L1, s, c, L2, hdec, hmc, hL1, hall⟩ := mostCommon1_spec hhne
  have hsc : (s, c) ∈ h := by
    rw [hdec]
    exact List.mem_append_right _ (List.mem_cons_self _ _)
  have hcs : c = sizes.count s := by
    have := entry_cnt hnodup (s, c) hsc
    rw [← hcnt_all s]
    exact this
  have hsmem : s ∈ sizes := by
    rw [← List.count_pos_iff]
    have h1 : 0 < c := by
      rcases hx : sizes with _ | ⟨x, xs⟩
      · exact absurd hx hsne
      · have hx' : x ∈ sizes := by rw [hx]; exact List.mem_cons_self _ _
        have hxk : x ∈ keysOf h := by
          rw [hkeys]
          rcases newKeys_complete sizes [] hx' with hc | hc
          · exact absurd hc (List.not_mem_nil x)
          · exact hc
        obtain ⟨p, hp, hpx⟩ := List.mem_map.mp hxk
        have h2 : p.2 = cnt p.1 h := entry_cnt hnodup p hp
        have h3 : p.2 ≤ c := hall p hp
        have h4 : cnt p.1 h = sizes.count p.1 := hcnt_all p.1
        have h5 : 0 < sizes.count p.1 := List.count_pos_iff.mpr (hpx ▸ hx')
        omega
    omega
  refine ⟨s, hmc, hsmem, ?_, ?_⟩
  · intro t ht
    have htk : t ∈ keysOf h := by
      rw [hkeys]
      rcases newKeys_complete sizes [] ht with hc | hc
      · exact absurd hc (List.not_mem_nil t)
      · exact hc
    obtain ⟨p, hp, hpt⟩ := List.mem_map.mp htk
    have h2 : p.2 = cnt p.1 h := entry_cnt hnodup p hp
    have h3 : p.2 ≤ c := hall p hp
    have h4 : cnt p.1 h = sizes.count p.1 := hcnt_all p.1
    rw [← hpt]
    omega
  · intro t ht hteq
    by_cases hts : t = s
    · subst hts
      exact le_refl _
    · have htk : t ∈ keysOf h := by
        rw [hkeys]
        rcases newKeys_complete sizes [] ht with hc | hc
        · exact absurd hc (List.not_mem_nil t)
        · exact hc
      obtain ⟨p, hp, hpt⟩ := List.mem_map.mp htk
      have h2 : p.2 = cnt p.1 h := entry_cnt hnodup p hp
      have h4 : cnt p.1 h = sizes.count p.1 := hcnt_all p.1
      have hptc : p.2 = c := by
        rw [h2, h4, hpt, hteq, hcs]
      have hpL2 : p ∈ L2 := by
        rw [hdec] at hp
        rcases List.mem_append.mp hp with hp | hp
        · have := hL1 p hp
          omega
        · rcases List.mem_cons.mp hp with rfl | hp
          · exact absurd hpt.symm hts
          · exact hp
      have hpw : (keysOf h).Pairwise (fun a b => sizes.indexOf a < sizes.indexOf b) := by
        rw [hkeys]
        exact newKeys_pairwise_idx sizes []
      have hkdec : keysOf h = keysOf L1 ++ s :: keysOf L2 := by
        rw [hdec]
        unfold keysOf
        rw [List.map_append, List.map_cons]
      rw [hkdec] at hpw
      have hpw2 := (List.pairwise_append.mp hpw).2.1
      have hst := (List.pairwise_cons.mp hpw2).1 t
        (hpt ▸ List.mem_map_of_mem Prod.fst hpL2)
      omega

/-- Witness for C5 at sizes `[12, 10, 12, 10, 11]`: counts tie at 2 between
12 and 10, and 12 — first encountered — is chosen. -/
theorem C5_theorem_witness :
    ∃ s, mostCommon1 (buildCounts
        ((([⟨"a".toList, 12, false, 1⟩, ⟨"b".toList, 10, false, 1⟩,
            ⟨"c".toList, 12, false, 1⟩, ⟨"d".toList, 10, false, 2⟩,
            ⟨"e".toList, 11, false, 2⟩] : List Block)).map Block.font_size)) = some s ∧
      s ∈ ([⟨"a".toList, 12, false, 1⟩, ⟨"b".toList, 10, false, 1⟩,
            ⟨"c".toList, 12, false, 1⟩, ⟨"d".toList, 10, false, 2⟩,
            ⟨"e".toList, 11, false, 2⟩] : List Block).map Block.font_size ∧
      (∀ t ∈ ([⟨"a".toList, 12, false, 1⟩, ⟨"b".toList, 10, false, 1⟩,
            ⟨"c".toList, 12, false, 1⟩, ⟨"d".toList, 10, false, 2⟩,
            ⟨"e".toList, 11, false, 2⟩] : List Block).map Block.font_size,
        (([⟨"a".toList, 12, false, 1⟩, ⟨"b".toList, 10, false, 1⟩,
            ⟨"c".toList, 12, false, 1⟩, ⟨"d".toList, 10, false, 2⟩,
            ⟨"e".toList, 11, false, 2⟩] : List Block).map Block.font_size).count t ≤
        (([⟨"a".toList, 12, false, 1⟩, ⟨"b".toList, 10, false, 1⟩,
            ⟨"c".toList, 12, false, 1⟩, ⟨"d".toList, 10, false, 2⟩,
            ⟨"e".toList, 11, false, 2⟩] : List Block).map Block.font_size).count s) ∧
      (∀ t ∈ ([⟨"a".toList, 12, false, 1⟩, ⟨"b".toList, 10, false, 1⟩,
            ⟨"c".toList, 12, false, 1⟩, ⟨"d".toList, 10, false, 2⟩,
            ⟨"e".toList, 11, false, 2⟩] : List Block).map Block.font_size,
        (([⟨"a".toList, 12, false, 1⟩, ⟨"b".toList, 10, false, 1⟩,
            ⟨"c".toList, 12, false, 1⟩, ⟨"d".toList, 10, false, 2⟩,
            ⟨"e".toList, 11, false, 2⟩] : List Block).map Block.font_size).count t =
        (([⟨"a".toList, 12, false, 1⟩, ⟨"b".toList, 10, false, 1⟩,
            ⟨"c".toList, 12, false, 1⟩, ⟨"d".toList, 10, false, 2⟩,
            ⟨"e".toList, 11, false, 2⟩] : List Block).map Block.font_size).count s →
        (([⟨"a".toList, 12, false, 1⟩, ⟨"b".toList, 10, false, 1⟩,
            ⟨"c".toList, 12, false, 1⟩, ⟨"d".toList, 10, false, 2⟩,
            ⟨"e".toList, 11, false, 2⟩] : List Block).map Block.font_size).indexOf s ≤
        (([⟨"a".toList, 12, false, 1⟩, ⟨"b".toList, 10, false, 1⟩,
            ⟨"c".toList, 12, false, 1⟩, ⟨"d".toList, 10, false, 2⟩,
            ⟨"e".toList, 11, false, 2⟩] : List Block).map Block.font_size).indexOf t) :=
  C5_theorem
    [⟨"a".toList, 12, false, 1⟩, ⟨"b".toList, 10, false, 1⟩,
     ⟨"c".toList, 12, false, 1⟩, ⟨"d".toList, 10, false, 2⟩,
     ⟨"e".toList, 11, false, 2⟩] (by decide)

/-! ### C9: all-letter token texts and the case-insensitive caps pattern -/

/-- Tokens that make a text all-alphabetic with at least 2 letters each. -/
def AlphaToks (toks : List Chars) : Prop :=
  ∀ t ∈ toks, 2 ≤ t.length ∧ ∀ c ∈ t, c.isAlpha = true

theorem alphaToks_good {toks : List Chars} (h : AlphaToks toks) : GoodToks toks := by
  intro t ht
  obtain ⟨hlen, halpha⟩ := h t ht
  refine ⟨?_, fun c hc => alpha_not_ws c (halpha c hc)⟩
  intro hnil
  rw [hnil] at hlen
  simp at hlen

theorem mem_joinSp {c : Char} : ∀ {toks : List Chars}, c ∈ joinSp toks →
    c = ' ' ∨ ∃ t ∈ toks, c ∈ t := by
  intro toks
  induction toks with
  | nil => intro h; exact absurd h (List.not_mem_nil c)
  | cons t ts ih =>
    intro h
    cases ts with
    | nil => exact Or.inr ⟨t, List.mem_cons_self _ _, h⟩
    | cons u us =>
      rw [joinSp_cons_of_ne_nil (by simp)] at h
      rcases List.mem_append.mp h with h | h
      · exact Or.inr ⟨t, List.mem_cons_self _ _, h⟩
      · rcases List.mem_cons.mp h with rfl | h
        · exact Or.inl rfl
        · rcases ih h with h | ⟨v, hv, hc⟩
          · exact Or.inl h
          · exact Or.inr ⟨v, List.mem_cons_of_mem _ hv, hc⟩

theorem specialCount_joinSp {toks : List Chars} (h : AlphaToks toks) :
    specialCount (joinSp toks) = 0 := by
  unfold specialCount
  rw [List.length_eq_zero]
  rw [List.filter_eq_nil_iff]
  intro c hc
  rcases mem_joinSp hc with rfl | ⟨t, ht, hct⟩
  · simp [isWordChar]
  · have := alpha_isWordChar c ((h t ht).2 c hct)
    simp [this]

theorem pageTail_digit {r : Chars} (h : pageTail r = true) :
    ∃ c ∈ r, c.isDigit = true := by
  unfold pageTail at h
  simp only [Bool.and_eq_true, decide_eq_true_eq] at h
  obtain ⟨⟨_, hd⟩, _⟩ := h
  obtain ⟨c, hc⟩ : ∃ c, c ∈ (r.dropWhile Char.isWhitespace).takeWhile Char.isDigit := by
    cases hx : (r.dropWhile Char.isWhitespace).takeWhile Char.isDigit with
    | nil => exact absurd hx hd
    | cons c cs => exact ⟨c, hx.symm ▸ List.mem_cons_self c cs⟩
  refine ⟨c, ?_, List.mem_takeWhile_imp hc⟩
  exact (List.dropWhile_sublist _).subset ((List.takeWhile_sublist _).subset hc)

theorem matchPageNum_digit : ∀ {s : Chars}, matchPageNum s = true →
    ∃ c ∈ s, c.isDigit = true := by
  intro s h
  match s with
  | [] => exact absurd h (by decide)
  | [_] => exact absurd h (by simp [matchPageNum])
  | [_, _] => exact absurd h (by simp [matchPageNum])
  | [_, _, _] => exact absurd h (by simp [matchPageNum])
  | p :: a :: g :: e :: rest =>
    rw [matchPageNum] at h
    simp only [Bool.and_eq_true, decide_eq_true_eq] at h
    obtain ⟨c, hc, hcd⟩ := pageTail_digit h.2
    exact ⟨c, by
      repeat apply List.mem_cons_of_mem
      exact hc, hcd⟩

theorem capsAux_letters {t : Chars} (h : ∀ c ∈ t, c.isAlpha = true) :
    ∀ (n : Nat) (rest : Chars),
      capsAux true n (t ++ rest) = capsAux true (n + t.length) rest := by
  induction t with
  | nil => intro n rest; simp
  | cons c t ih =>
    intro n rest
    rw [List.cons_append, capsAux, if_pos (h c (List.mem_cons_self _ _))]
    rw [ih (fun d hd => h d (List.mem_cons_of_mem _ hd))]
    congr 1
    simp
    omega

theorem capsJoin : ∀ {toks : List Chars}, toks ≠ [] → AlphaToks toks →
    capsAux false 0 (joinSp toks) = true := by
  intro toks
  induction toks with
  | nil => intro h _; exact absurd rfl h
  | cons t ts ih =>
    intro _ halpha
    obtain ⟨hlen, hab⟩ := halpha t (List.mem_cons_self _ _)
    have halpha' : AlphaToks ts := fun u hu => halpha u (List.mem_cons_of_mem _ hu)
    obtain ⟨c, t', rfl⟩ : ∃ c t', t = c :: t' := by
      cases t with
      | nil => simp at hlen
      | cons c t' => exact ⟨c, t', rfl⟩
    have hca : c.isAlpha = true := hab c (List.mem_cons_self _ _)
    have ht' : ∀ d ∈ t', d.isAlpha = true := fun d hd => hab d (List.mem_cons_of_mem _ hd)
    cases ts with
    | nil =>
      show capsAux false 0 (c :: t') = true
      rw [capsAux, if_pos hca]
      have : capsAux true 1 (t' ++ []) = capsAux true (1 + t'.length) [] :=
        capsAux_letters ht' 1 []
      rw [List.append_nil] at this
      rw [this, capsAux]
      simp only [List.length_cons] at hlen
      simp only [decide_eq_true_eq]
      omega
    | cons u us =>
      rw [joinSp_cons_of_ne_nil (by simp), List.cons_append, capsAux, if_pos hca]
      rw [capsAux_letters ht' 1]
      rw [capsAux, if_neg (by simp [Char.isAlpha, Char.isUpper, Char.isLower]),
        if_pos (by decide)]
      simp only [List.length_cons] at hlen
      rw [ih (by simp) halpha']
      simp only [Bool.and_true, decide_eq_true_eq]
      omega

theorem matchCapsTokens_joinSp {toks : List Chars} (hne : toks ≠ [])
    (halpha : AlphaToks toks) : matchCapsTokens (joinSp toks) = true := by
  obtain ⟨t, ts, ht⟩ : ∃ t ts, toks = t :: ts := by
    cases toks with
    | nil => exact absurd rfl hne
    | cons t ts => exact ⟨t, ts, rfl⟩
  obtain ⟨c, r, hj, _, hct⟩ := joinSp_head ht (alphaToks_good halpha)
  have hca : c.isAlpha = true := by
    subst ht
    exact (halpha t (List.mem_cons_self _ _)).2 c hct
  have hcaps := capsJoin hne halpha
  rw [hj] at hcaps ⊢
  rw [capsAux, if_pos hca] at hcaps
  rw [matchCapsTokens, hca]
  simpa using hcaps

/-- C9 (counterexample): `"aaaaaaaa"` consists of a single alphabetic token
of length 8, passes the claimed rejection gates, yet is not classified as a
heading: the 7-run garbage filter empties it during cleaning. -/
theorem C9_counterexample :
    ("aaaaaaaa".toList ≠ ([] : Chars)) ∧
    (pySplit ("aaaaaaaa".toList)).length ≤ 25 ∧
    ("aaaaaaaa".toList).length ≤ 200 ∧
    (∀ c ∈ ("aaaaaaaa".toList), c.isAlpha = true) ∧
    2 ≤ ("aaaaaaaa".toList).length ∧
    is_likely_heading ("aaaaaaaa".toList) 0 false 0 [] = false := by
  decide

/-- C9 (amended): every text made of space-separated alphabetic tokens of
length at least 2 that passes the rejection gates (at most 25 words, at most
200 characters) **and contains no run of 7 or more equal consecutive
characters** is classified as a heading by `is_likely_heading` regardless of
`font_size`, `is_bold`, `body_size` and `heading_sizes`: the ALL-CAPS pattern
is compiled with `re.IGNORECASE`, so it matches lowercase text such as
`"overview notes"` too. -/
theorem C9_theorem (toks : List Chars) (hne : toks ≠ []) (halpha : AlphaToks toks)
    (hwc : toks.length ≤ 25) (hlen : (joinSp toks).length ≤ 200)
    (hrun : hasRun7 (joinSp toks) = false) :
    ∀ (font_size : Nat) (is_bold : Bool) (body_size : Nat) (hs : List Nat),
      is_likely_heading (joinSp toks) font_size is_bold body_size hs = true := by
  intro font_size is_bold body_size hs
  have hgood : GoodToks toks := alphaToks_good halpha
  obtain ⟨t, ts, ht⟩ : ∃ t ts, toks = t :: ts := by
    cases toks with
    | nil => exact absurd rfl hne
    | cons t ts => exact ⟨t, ts, rfl⟩
  obtain ⟨c, r, hj, hcw, hct⟩ := joinSp_head ht hgood
  have htne : joinSp toks ≠ [] := by rw [hj]; exact List.cons_ne_nil _ _
  have hstrip : pyStrip (joinSp toks) = joinSp toks := pyStrip_joinSp hne hgood
  have htm : t ∈ toks := by rw [ht]; exact List.mem_cons_self _ _
  have ht2 : 2 ≤ t.length := (halpha t htm).1
  have hstrip2 : 2 ≤ (pyStrip (joinSp toks)).length := by
    rw [hstrip, ht]
    cases ts with
    | nil => simpa using ht2
    | cons u us =>
      rw [joinSp_cons_of_ne_nil (by simp), List.length_append]
      omega
  have hnorm : normWs (joinSp toks) = joinSp toks := normWs_joinSp hne hgood
  have hclean : clean_text (joinSp toks) = joinSp toks := by
    rw [clean_text, if_neg htne, hnorm, wordRepRejects_eq_false, hrun]
    rw [if_neg (by simp), if_neg (by simp)]
    rw [if_neg (by
      rw [specialCount_joinSp halpha]
      omega)]
  have hsplit : pySplit (joinSp toks) = toks := pySplit_joinSp hgood
  have hca : c.isAlpha = true := by
    rw [ht] at halpha
    exact (halpha t (List.mem_cons_self _ _)).2 c hct
  have hstrict : strictNonHeading (joinSp toks) = false := by
    unfold strictNonHeading
    have hmoney : matchMoney (joinSp toks) = false := by
      rw [hj, matchMoney]
      simp [alpha_ne_dollar c hca]
    have hpage : matchPageNum (joinSp toks) = false := by
      rw [Bool.eq_false_iff]
      intro hp
      obtain ⟨d, hd, hdd⟩ := matchPageNum_digit hp
      rcases mem_joinSp hd with rfl | ⟨u, hu, hdu⟩
      · exact absurd hdd (by decide)
      · have := alpha_not_digit d ((halpha u hu).2 d hdu)
        rw [this] at hdd
        exact absurd hdd (by simp)
    have hnolet : noLettersOnly (joinSp toks) = false := by
      rw [hj, noLettersOnly]
      simp [hca]
    have hnoword : noWordCharsOnly (joinSp toks) = false := by
      rw [hj, noWordCharsOnly]
      simp [alpha_isWordChar c hca]
    rw [hmoney, hpage, hnolet, hnoword]
    rfl
  have hstrong : strongHeading (joinSp toks) = true := by
    unfold strongHeading
    rw [matchCapsTokens_joinSp hne halpha]
    simp
  rw [is_likely_heading, if_neg (by
    intro hc
    rcases hc with hc | hc
    · exact htne hc
    · omega)]
  rw [hclean, if_neg htne, hsplit]
  rw [if_neg (by omega), if_neg (by omega), hstrict, hstrong]
  rw [if_neg (by simp), if_pos rfl]

/-- Witness for C9's amended theorem at the all-lowercase two-token text
`"overview notes"`, with font signals that provide no help at all. -/
theorem C9_theorem_witness :
    is_likely_heading ("overview notes".toList) 0 false 1000 [] = true := by
  have h := C9_theorem ["overview".toList, "notes".toList] (by decide)
    (by unfold AlphaToks; decide) (by decide) (by decide) (by decide) 0 false 1000 []
  exact h

end Extractor
